import Mathlib

/-!
Verification development for the JSON API-response inspection core:
schema inference (inferSchema.ts), structural diff (diffJson.ts),
filter evaluation (applyFilters.ts) and chart projection (buildChartData.ts).

The JavaScript sources are embedded shallowly:
* JSON values are the inductive `Json`; JavaScript objects are association
  lists in insertion order (a parsed JS object can never carry a duplicate
  key, so theorems that depend on key lookup may assume `wfJson`).
* JavaScript numbers are modelled as `Int` (none of the verified algorithms
  depend on float-specific behaviour).
* `undefined` is modelled as `Option.none`; a present JSON `null` is
  `some Json.null`, which keeps the JS distinction between a missing key and
  a key holding `null`.
* `JSON.stringify`-equality of schema types (the comparison the source uses
  for union de-duplication and merge short-circuiting) is literal structural
  equality of the embedded values, because object fields are kept in
  insertion order exactly as `JSON.stringify` serializes them.
* JS string operations (`split`, `toLowerCase` on ASCII, `includes`,
  `startsWith`, `String(value)` stringification) are re-implemented on the
  character-list model of `String`.
-/

/-- A parsed JSON value. Object fields are kept in insertion order, mirroring
JavaScript objects. -/
inductive Json where
  | null
  | bool (b : Bool)
  | num (n : Int)
  | str (s : String)
  | arr (items : List Json)
  | obj (fields : List (String × Json))

/-- Keys of an association list are pairwise distinct. JS objects always
satisfy this, so it is the well-formedness assumption for embedded objects. -/
def keysNodup {α : Type} : List (String × α) → Bool
  | [] => true
  | (k, _) :: rest => rest.all (fun kv => !(kv.1 == k)) && keysNodup rest

mutual
/-- Well-formed JSON: every object in the tree has pairwise distinct keys,
as is automatic for values produced by a JavaScript JSON parser. -/
def wfJson : Json → Bool
  | .null => true
  | .bool _ => true
  | .num _ => true
  | .str _ => true
  | .arr items => wfJsonList items
  | .obj fields => keysNodup fields && wfJsonFields fields
termination_by structural j => j

def wfJsonList : List Json → Bool
  | [] => true
  | j :: rest => wfJson j && wfJsonList rest
termination_by structural l => l

def wfJsonFields : List (String × Json) → Bool
  | [] => true
  | (_, v) :: rest => wfJson v && wfJsonFields rest
termination_by structural l => l
end

/-- ASCII lower-casing of one character, the fragment of JS `toLowerCase`
exercised by the core. -/
def lowerChar (c : Char) : Char :=
  if 65 ≤ c.toNat && c.toNat ≤ 90 then Char.ofNat (c.toNat + 32) else c

/-- ASCII fragment of JS `String.prototype.toLowerCase`. -/
def lowerString (s : String) : String :=
  String.mk (s.data.map lowerChar)

/-- JS `String.prototype.startsWith`. -/
def strStartsWith (s : String) (p : String) : Bool :=
  List.isPrefixOf p.data s.data

def strContainsAux : List Char → List Char → Bool
  | [], needle => needle.isEmpty
  | c :: rest, needle => List.isPrefixOf needle (c :: rest) || strContainsAux rest needle

/-- JS `String.prototype.includes` (substring test). -/
def strContains (s : String) (t : String) : Bool :=
  strContainsAux s.data t.data

def splitPathAux : List Char → List Char → List String
  | [], acc => [String.mk acc.reverse]
  | c :: rest, acc =>
      if c == '.' then String.mk acc.reverse :: splitPathAux rest []
      else splitPathAux rest (c :: acc)

/-- JS `path.split(".")`: splits at every dot, keeping empty segments
(so the empty path yields `[""]`, exactly as in JavaScript). -/
def splitPath (path : String) : List String :=
  splitPathAux path.data []

/-- JS decimal rendering of an integer, as produced by `String(n)`. -/
def intToString : Int → String
  | .ofNat m => Nat.repr m
  | .negSucc m => "-" ++ Nat.repr (m + 1)

mutual
/-- JS `String(value)` coercion: `null` renders as "null", booleans and
numbers as their literals, arrays join their elements with commas (a `null`
element renders as the empty string) and plain objects render as
"[object Object]". -/
def jsToString : Json → String
  | .null => "null"
  | .bool b => if b then "true" else "false"
  | .num n => intToString n
  | .str s => s
  | .arr items => joinItems items
  | .obj _ => "[object Object]"
termination_by structural j => j

def joinItems : List Json → String
  | [] => ""
  | [j] =>
      (match j with
       | .null => ""
       | other => jsToString other)
  | j :: rest =>
      (match j with
       | .null => ""
       | other => jsToString other) ++ "," ++ joinItems rest
termination_by structural l => l
end

mutual
/-- Literal structural equality of JSON values (reflects equality of the
embedded terms). -/
def jsonEq : Json → Json → Bool
  | .null, .null => true
  | .bool x, .bool y => x == y
  | .num x, .num y => x == y
  | .str x, .str y => x == y
  | .arr xs, .arr ys => jsonEqList xs ys
  | .obj xs, .obj ys => jsonEqFields xs ys
  | _, _ => false
termination_by structural a => a

def jsonEqList : List Json → List Json → Bool
  | [], [] => true
  | x :: xs, y :: ys => jsonEq x y && jsonEqList xs ys
  | _, _ => false
termination_by structural l => l

def jsonEqFields : List (String × Json) → List (String × Json) → Bool
  | [], [] => true
  | (k1, v1) :: xs, (k2, v2) :: ys => k1 == k2 && jsonEq v1 v2 && jsonEqFields xs ys
  | _, _ => false
termination_by structural l => l
end

/-- Literal equality of optional JSON values (`none` = absent field). -/
def optJsonEq : Option Json → Option Json → Bool
  | none, none => true
  | some a, some b => jsonEq a b
  | _, _ => false

namespace InferSchema

/-- src/utils/inferSchema.ts: the four primitive JSON kinds. -/
inductive PrimitiveType where
  | string
  | number
  | boolean
  | null
deriving DecidableEq, Repr, Fintype

mutual
/-- src/utils/inferSchema.ts `SchemaType`: primitive, array, object or union.
Object fields keep insertion order, as JS objects do. -/
inductive SchemaType : Type where
  | primitive (type : PrimitiveType)
  | array (itemSchema : SchemaNode)
  | object (fields : List (String × SchemaNode))
  | union (types : List SchemaType)

/-- src/utils/inferSchema.ts `SchemaNode`: a schema type plus an optionality
flag. -/
inductive SchemaNode : Type where
  | mk (type : SchemaType) (optional : Bool)
end

def SchemaNode.type : SchemaNode → SchemaType
  | .mk t _ => t

def SchemaNode.optional : SchemaNode → Bool
  | .mk _ o => o

mutual
/-- `JSON.stringify(a) === JSON.stringify(b)` on schema types. Since the
embedding keeps object fields in insertion order and `JSON.stringify`
serializes them in that same order, stringify-equality is literal structural
equality of the embedded values, decided here recursively. -/
def steqTy : SchemaType → SchemaType → Bool
  | .primitive p, .primitive q => p == q
  | .array n1, .array n2 => steqNode n1 n2
  | .object f1, .object f2 => steqFields f1 f2
  | .union t1, .union t2 => steqTys t1 t2
  | _, _ => false
termination_by structural a => a

def steqNode : SchemaNode → SchemaNode → Bool
  | .mk t1 o1, .mk t2 o2 => steqTy t1 t2 && o1 == o2
termination_by structural a => a

def steqTys : List SchemaType → List SchemaType → Bool
  | [], [] => true
  | t :: ts, u :: us => steqTy t u && steqTys ts us
  | _, _ => false
termination_by structural a => a

def steqFields : List (String × SchemaNode) → List (String × SchemaNode) → Bool
  | [], [] => true
  | (k1, v1) :: f1, (k2, v2) :: f2 => k1 == k2 && steqNode v1 v2 && steqFields f1 f2
  | _, _ => false
termination_by structural a => a
end

/-- `mergeIntoUnion` from inferSchema.ts: append `other` to the union's
member list unless a stringify-equal member is already present. -/
def mergeIntoUnion (types : List SchemaType) (other : SchemaType) : SchemaType :=
  if types.any (fun t => steqTy t other) then .union types
  else .union (types ++ [other])

/-- The `{ ...field, optional: true }` spread used for keys present on only
one side of an object merge. -/
def setOptionalTrue : SchemaNode → SchemaNode
  | .mk t _ => .mk t true

mutual
/-- `mergeSchemaTypes` from inferSchema.ts. The object case iterates the
union of both key sets in first-appearance order (`a`'s keys, then `b`'s new
keys), which `mergeFieldsLeft` plus the appended `b`-only tail reproduces. -/
def mergeSchemaTypes (a : SchemaType) (b : SchemaType) : SchemaType :=
  if steqTy a b then a
  else match a, b with
    | .primitive p, .primitive q =>
        if p != q then .union [.primitive p, .primitive q] else .primitive p
    | .array n1, .array n2 => .array (mergeSchemaNodes n1 n2)
    | .object f1, .object f2 =>
        .object (mergeFieldsLeft f1 f2 ++
          (f2.filter (fun kv => (f1.lookup kv.1).isNone)).map
            (fun kv => (kv.1, setOptionalTrue kv.2)))
    | .union t1, b2 => mergeIntoUnion t1 b2
    | a2, .union t2 => mergeIntoUnion t2 a2
    | a2, b2 => .union [a2, b2]
termination_by structural a

/-- `mergeSchemaNodes` from inferSchema.ts: merge the types, OR the
optional flags. -/
def mergeSchemaNodes (a : SchemaNode) (b : SchemaNode) : SchemaNode :=
  match a, b with
  | .mk t1 o1, .mk t2 o2 => .mk (mergeSchemaTypes t1 t2) (o1 || o2)
termination_by structural a

/-- The part of the object-merge loop that walks `a`'s keys: a key also in
`b` merges the two field nodes, a key only in `a` is carried with
`optional := true`. -/
def mergeFieldsLeft (f1 : List (String × SchemaNode)) (f2 : List (String × SchemaNode)) :
    List (String × SchemaNode) :=
  match f1 with
  | [] => []
  | (k, va) :: rest =>
      (match f2.lookup k with
       | some vb => (k, mergeSchemaNodes va vb)
       | none => (k, setOptionalTrue va)) :: mergeFieldsLeft rest f2
termination_by structural f1
end

/-- The full field list built by the object branch of `mergeSchemaTypes`:
`a`'s keys (merged or carried optional) followed by `b`'s new keys carried
optional. Abbreviates the expression inlined in `mergeSchemaTypes`. -/
def mergedFields (f1 f2 : List (String × SchemaNode)) : List (String × SchemaNode) :=
  mergeFieldsLeft f1 f2 ++
    (f2.filter (fun kv => (f1.lookup kv.1).isNone)).map
      (fun kv => (kv.1, setOptionalTrue kv.2))

/-- The placeholder schema the source assigns to an empty array:
`array(itemSchema = primitive(string))`. -/
def emptyArrayPlaceholder : SchemaType :=
  .array (.mk (.primitive .string) false)

mutual
/-- `inferTypeForValue` from inferSchema.ts. The JS `reduce` without an
initial value throws on an empty list, which the embedding models by
returning `none` in that (guarded, unreachable) case; the `Option` layer
is exactly the reachability of that error. -/
def inferTypeForValue : Json → Option SchemaType
  | .null => some (.primitive .null)
  | .arr items =>
      if items.length = 0 then some emptyArrayPlaceholder
      else
        match inferNodes items with
        | none => none
        | some itemSchemas =>
          match itemSchemas with
          | [] => none
          | first :: rest => some (.array (List.foldl mergeSchemaNodes first rest))
  | .obj fields =>
      match inferFields fields with
      | none => none
      | some fs => some (.object fs)
  | .str _ => some (.primitive .string)
  | .num _ => some (.primitive .number)
  | .bool _ => some (.primitive .boolean)
termination_by structural j => j

/-- The `value.map((item) => ({ type: inferTypeForValue(item), optional: false }))`
step over array elements. -/
def inferNodes : List Json → Option (List SchemaNode)
  | [] => some []
  | j :: rest =>
      match inferTypeForValue j with
      | none => none
      | some t =>
        match inferNodes rest with
        | none => none
        | some ns => some (.mk t false :: ns)
termination_by structural l => l

/-- The `Object.entries` loop of object inference: each field is inferred
independently with `optional := false`. -/
def inferFields : List (String × Json) → Option (List (String × SchemaNode))
  | [] => some []
  | (k, v) :: rest =>
      match inferTypeForValue v with
      | none => none
      | some t =>
        match inferFields rest with
        | none => none
        | some fs => some ((k, .mk t false) :: fs)
termination_by structural l => l
end

/-- `inferSchema` from inferSchema.ts: top-level arrays fold their element
schemas with the merge; any other value is inferred directly. -/
def inferSchema : Json → Option SchemaNode
  | .arr items =>
      if items.length = 0 then some (.mk emptyArrayPlaceholder false)
      else
        match inferNodes items with
        | none => none
        | some itemSchemas =>
          match itemSchemas with
          | [] => none
          | first :: rest => some (.mk (.array (List.foldl mergeSchemaNodes first rest)) false)
  | data =>
      match inferTypeForValue data with
      | none => none
      | some t => some (.mk t false)

/-- Insert into a list sorted by the boolean comparator `le`. -/
def insertSortedBy {α : Type} (le : α → α → Bool) (x : α) : List α → List α
  | [] => [x]
  | y :: ys => if le x y then x :: y :: ys else y :: insertSortedBy le x ys

/-- Insertion sort by a boolean comparator; used only to canonicalize
schema types for the order-independent structural comparison. -/
def sortBy {α : Type} (le : α → α → Bool) : List α → List α
  | [] => []
  | x :: xs => insertSortedBy le x (sortBy le xs)

/-- Lexicographic comparison of character lists. -/
def charListLe : List Char → List Char → Bool
  | [], _ => true
  | _ :: _, [] => false
  | a :: as, b :: bs => if a == b then charListLe as bs else Nat.blt a.toNat b.toNat

/-- Lexicographic comparison of strings, used as the sort key during
canonicalization. -/
def strLeB (a b : String) : Bool := charListLe a.data b.data

mutual
/-- A serialization of schema types used only as a sort key when
canonicalizing union member lists; it need not be injective. -/
def serTy : SchemaType → String
  | .primitive .string => "ps"
  | .primitive .number => "pn"
  | .primitive .boolean => "pb"
  | .primitive .null => "pz"
  | .array n => "a(" ++ serNode n ++ ")"
  | .object fs => "o(" ++ serFields fs ++ ")"
  | .union ts => "u(" ++ serTys ts ++ ")"
termination_by structural t => t

def serNode : SchemaNode → String
  | .mk t o => serTy t ++ (if o then "?" else ".")
termination_by structural n => n

def serTys : List SchemaType → String
  | [] => ""
  | t :: ts => serTy t ++ ";" ++ serTys ts
termination_by structural l => l

def serFields : List (String × SchemaNode) → String
  | [] => ""
  | (k, v) :: fs => k ++ "=" ++ serNode v ++ ";" ++ serFields fs
termination_by structural l => l
end

/-- The head constructor of a schema type, as the first character of its
`serTy` serialization; distinct constructors get distinct characters, so
serializations of differently-shaped types never collide. -/
def kindChar : SchemaType → Char
  | .primitive _ => 'p'
  | .array _ => 'a'
  | .object _ => 'o'
  | .union _ => 'u'

/-- Remove adjacent stringify-equal duplicates from a (sorted) member
list. -/
def dedupTys : List SchemaType → List SchemaType
  | [] => []
  | [t] => [t]
  | t :: u :: rest =>
      if steqTy t u then dedupTys (u :: rest) else t :: dedupTys (u :: rest)

mutual
/-- Canonical form for the spec's deep structural equality: object fields
are sorted by key (key order is irrelevant for structural equality) and
union member lists are sorted and de-duplicated (the spec treats them as
sets). Two schema types are structurally equal exactly when their canonical
forms coincide. -/
def canonTy : SchemaType → SchemaType
  | .primitive p => .primitive p
  | .array n => .array (canonNode n)
  | .object fs => .object (sortBy (fun p q => strLeB p.1 q.1) (canonFields fs))
  | .union ts => .union (dedupTys (sortBy (fun a b => strLeB (serTy a) (serTy b)) (canonTys ts)))
termination_by structural t => t

def canonNode : SchemaNode → SchemaNode
  | .mk t o => .mk (canonTy t) o
termination_by structural n => n

def canonTys : List SchemaType → List SchemaType
  | [] => []
  | t :: ts => canonTy t :: canonTys ts
termination_by structural l => l

def canonFields : List (String × SchemaNode) → List (String × SchemaNode)
  | [] => []
  | (k, v) :: fs => (k, canonNode v) :: canonFields fs
termination_by structural l => l
end

/-- Deep structural equality of schema types in the sense of the spec:
independent of object key order, union member lists compared as sets. -/
def tyEquiv (a b : SchemaType) : Bool := steqTy (canonTy a) (canonTy b)

/-- Deep structural equality of schema nodes (type structurally equal and
same optionality). -/
def nodeEquiv (a b : SchemaNode) : Bool := steqNode (canonNode a) (canonNode b)

/-- No member of the list repeats under stringify-equality. -/
def pairwiseDistinct : List SchemaType → Bool
  | [] => true
  | t :: ts => ts.all (fun u => !(steqTy t u)) && pairwiseDistinct ts

mutual
/-- Every union in the schema type has pairwise stringify-distinct
members. -/
def dedupedTy : SchemaType → Bool
  | .primitive _ => true
  | .array n => dedupedNode n
  | .object fs => dedupedFields fs
  | .union ts => pairwiseDistinct ts && dedupedTys ts
termination_by structural t => t

def dedupedNode : SchemaNode → Bool
  | .mk t _ => dedupedTy t
termination_by structural n => n

def dedupedTys : List SchemaType → Bool
  | [] => true
  | t :: ts => dedupedTy t && dedupedTys ts
termination_by structural l => l

def dedupedFields : List (String × SchemaNode) → Bool
  | [] => true
  | (_, v) :: fs => dedupedNode v && dedupedFields fs
termination_by structural l => l
end

mutual
/-- The schema type contains no union anywhere. -/
def unionFreeTy : SchemaType → Bool
  | .primitive _ => true
  | .array n => unionFreeNode n
  | .object fs => unionFreeFields fs
  | .union _ => false
termination_by structural t => t

def unionFreeNode : SchemaNode → Bool
  | .mk t _ => unionFreeTy t
termination_by structural n => n

def unionFreeFields : List (String × SchemaNode) → Bool
  | [] => true
  | (_, v) :: fs => unionFreeNode v && unionFreeFields fs
termination_by structural l => l
end

mutual
/-- Well-formed schema type: every object field list has pairwise distinct
keys (automatic for schemas inferred from parsed JSON). -/
def wfTy : SchemaType → Bool
  | .primitive _ => true
  | .array n => wfNode n
  | .object fs => keysNodup fs && wfFieldsList fs
  | .union ts => wfTys ts
termination_by structural t => t

def wfNode : SchemaNode → Bool
  | .mk t _ => wfTy t
termination_by structural n => n

def wfTys : List SchemaType → Bool
  | [] => true
  | t :: ts => wfTy t && wfTys ts
termination_by structural l => l

def wfFieldsList : List (String × SchemaNode) → Bool
  | [] => true
  | (_, v) :: fs => wfNode v && wfFieldsList fs
termination_by structural l => l
end

end InferSchema

namespace DiffJson

/-- src/utils/diffJson.ts `DiffStatus`. -/
inductive DiffStatus where
  | added
  | removed
  | changed
  | unchanged
deriving DecidableEq, Repr

/-- src/utils/diffJson.ts `DiffNode`: the optional `oldValue`/`newValue`
carry raw JSON, `children` keyed child diffs (insertion order), `arrayItems`
index-aligned element diffs. An absent optional field of the JS object is
`none`. -/
inductive DiffNode where
  | mk (status : DiffStatus) (oldValue : Option Json) (newValue : Option Json)
       (children : Option (List (String × DiffNode)))
       (arrayItems : Option (List DiffNode))

def DiffNode.status : DiffNode → DiffStatus
  | .mk s _ _ _ _ => s

def DiffNode.oldValue : DiffNode → Option Json
  | .mk _ o _ _ _ => o

def DiffNode.newValue : DiffNode → Option Json
  | .mk _ _ n _ _ => n

def DiffNode.children : DiffNode → Option (List (String × DiffNode))
  | .mk _ _ _ c _ => c

def DiffNode.arrayItems : DiffNode → Option (List DiffNode)
  | .mk _ _ _ _ a => a

mutual
/-- `deepEqual` from diffJson.ts. Arrays compare by length and pointwise
recursion; objects compare key counts and then every key of the left object
against the right object, where a key missing on the right (`b[key]` being
`undefined`) makes the comparison false, exactly as `deepEqual(v, undefined)`
does in the source. -/
def deepEqual (a : Json) (b : Json) : Bool :=
  match a, b with
  | .null, .null => true
  | .bool x, .bool y => x == y
  | .num x, .num y => x == y
  | .str x, .str y => x == y
  | .arr xs, .arr ys => xs.length == ys.length && deepEqualList xs ys
  | .obj xs, .obj ys => xs.length == ys.length && deepEqualFields xs ys
  | _, _ => false
termination_by structural a

def deepEqualList : List Json → List Json → Bool
  | [], _ => true
  | x :: xs, ys =>
      (match ys with
       | [] => false
       | y :: rest => deepEqual x y && deepEqualList xs rest)
termination_by structural l => l

def deepEqualFields : List (String × Json) → List (String × Json) → Bool
  | [], _ => true
  | (k, v) :: rest, ys =>
      (match ys.lookup k with
       | some w => deepEqual v w
       | none => false) && deepEqualFields rest ys
termination_by structural l => l
end

/-- The JS `typeof` of a (non-null) JSON value; `typeof null` is never
consulted because the source checks `== null` first. -/
def typeofStr : Json → String
  | .null => "object"
  | .bool _ => "boolean"
  | .num _ => "number"
  | .str _ => "string"
  | .arr _ => "object"
  | .obj _ => "object"

def isArrJson : Json → Bool
  | .arr _ => true
  | _ => false

/-- `hasTypeChange` from diffJson.ts. -/
def hasTypeChange (a : Json) (b : Json) : Bool :=
  match a, b with
  | .null, .null => false
  | .null, _ => true
  | _, .null => true
  | x, y => (isArrJson x != isArrJson y) || (typeofStr x != typeofStr y)

/-- The node pushed for an array index or object key present only on the
new side. -/
def addedNode (v : Json) : DiffNode := .mk .added none (some v) none none

/-- The node pushed for an array index or object key present only on the
old side. -/
def removedNode (v : Json) : DiffNode := .mk .removed (some v) none none none

/-- The `added` children for keys of `newFields` that are absent from
`oldFields` (the `!(key in oldObj)` branch), in `newFields` order — exactly
the tail of the `Set` iteration order of `compareValues`. -/
def addedFields (oldFields newFields : List (String × Json)) : List (String × DiffNode) :=
  (newFields.filter (fun kv => (oldFields.lookup kv.1).isNone)).map
    (fun kv => (kv.1, addedNode kv.2))

mutual
/-- `compareValues` from diffJson.ts. The array loop over
`0 .. max(len,len)-1` is rendered as the structural walk
`compareArrayItems`; the object loop over the first-appearance-ordered key
union is rendered as the walk of the old fields (`compareObjFields`)
followed by the `added` tail for new-only keys. -/
def compareValues (oldVal : Json) (newVal : Json) : DiffNode :=
  match oldVal, newVal with
  | .arr os, .arr ns =>
      let arrayItems := compareArrayItems os ns
      let hasChanges := arrayItems.any (fun item => item.status != .unchanged)
      .mk (if hasChanges then .changed else .unchanged)
        (some (.arr os)) (some (.arr ns)) none (some arrayItems)
  | .obj oldFields, .obj newFields =>
      let children := compareObjFields oldFields newFields ++ addedFields oldFields newFields
      let hasChanges := children.any (fun child => child.2.status != .unchanged)
      .mk (if hasChanges then .changed else .unchanged)
        (some (.obj oldFields)) (some (.obj newFields)) (some children) none
  | a, b =>
      if deepEqual a b then .mk .unchanged (some a) (some b) none none
      else .mk (if hasTypeChange a b then .changed else .changed) (some a) (some b) none none
termination_by structural oldVal

/-- Index-aligned array comparison: indices in both sides recurse, an index
beyond the old length is `added`, beyond the new length `removed`. -/
def compareArrayItems : List Json → List Json → List DiffNode
  | [], ns => ns.map addedNode
  | o :: os, [] => removedNode o :: compareArrayItems os []
  | o :: os, n :: ns => compareValues o n :: compareArrayItems os ns
termination_by structural l => l

/-- The part of the object key loop that walks the old object's keys: a key
also present in the new object recurses, a key only in the old object yields
a `removed` node. -/
def compareObjFields : List (String × Json) → List (String × Json) → List (String × DiffNode)
  | [], _ => []
  | (k, ov) :: rest, newFields =>
      (match newFields.lookup k with
       | some nv => (k, compareValues ov nv)
       | none => (k, removedNode ov)) :: compareObjFields rest newFields
termination_by structural l => l
end

/-- `diffJson` from diffJson.ts. -/
def diffJson (oldJson : Json) (newJson : Json) : DiffNode :=
  compareValues oldJson newJson

/-- Status correspondence under swapping the two diffed values:
`added` ↔ `removed`, while `changed` and `unchanged` are preserved. -/
def statusSym : DiffStatus → DiffStatus → Bool
  | .added, .removed => true
  | .removed, .added => true
  | .changed, .changed => true
  | .unchanged, .unchanged => true
  | _, _ => false

mutual
/-- Modelled from the spec's words (diff symmetry): `e` is the mirror image
of `d` — same tree shape (children compared as a keyed map, array items
index-aligned), statuses relate by `added` ↔ `removed` with
`changed`/`unchanged` preserved, and `oldValue`/`newValue` swapped at every
node. -/
def diffSym (d : DiffNode) (e : DiffNode) : Bool :=
  match d, e with
  | .mk s1 o1 n1 c1 a1, .mk s2 o2 n2 c2 a2 =>
      statusSym s1 s2 && optJsonEq o1 n2 && optJsonEq n1 o2 &&
      (match c1, c2 with
       | none, none => true
       | some cs1, some cs2 =>
           diffSymFields cs1 cs2 && cs2.all (fun kv => (cs1.lookup kv.1).isSome)
       | _, _ => false) &&
      (match a1, a2 with
       | none, none => true
       | some xs, some ys => diffSymList xs ys
       | _, _ => false)
termination_by structural d

def diffSymFields : List (String × DiffNode) → List (String × DiffNode) → Bool
  | [], _ => true
  | (k, c) :: rest, cs2 =>
      (match cs2.lookup k with
       | some e2 => diffSym c e2
       | none => false) && diffSymFields rest cs2
termination_by structural l => l

def diffSymList : List DiffNode → List DiffNode → Bool
  | [], [] => true
  | x :: xs, y :: ys => diffSym x y && diffSymList xs ys
  | _, _ => false
termination_by structural l => l
end

mutual
/-- Modelled from the spec's words (composite status invariant): every node
carrying `children` or `arrayItems` has status `unchanged` exactly when all
of its children/items are `unchanged` and `changed` otherwise; a node with
status `added` carries no children/items and no `oldValue`, a node with
status `removed` carries no children/items and no `newValue`. -/
def compositeInv (d : DiffNode) : Bool :=
  match d with
  | .mk s oV nV c a =>
      (match c with
       | some cs =>
           (s == (if cs.all (fun kv => kv.2.status == .unchanged)
                  then DiffStatus.unchanged else .changed)) && compositeInvFields cs
       | none => true) &&
      (match a with
       | some xs =>
           (s == (if xs.all (fun x => x.status == .unchanged)
                  then DiffStatus.unchanged else .changed)) && compositeInvList xs
       | none => true) &&
      (!(s == .added) || (c.isNone && a.isNone && oV.isNone)) &&
      (!(s == .removed) || (c.isNone && a.isNone && nV.isNone))
termination_by structural d

def compositeInvFields : List (String × DiffNode) → Bool
  | [] => true
  | (_, c) :: rest => compositeInv c && compositeInvFields rest
termination_by structural l => l

def compositeInvList : List DiffNode → Bool
  | [] => true
  | x :: rest => compositeInv x && compositeInvList rest
termination_by structural l => l
end

/-- The status is `changed` or `unchanged` (never `added`/`removed`). -/
def statusCU (s : DiffStatus) : Bool := s == .changed || s == .unchanged

end DiffJson

/-- A record (`Record<string, unknown>` in the source): a JS object given as
an association list in insertion order. -/
def JsRecord : Type := List (String × Json)

namespace ApplyFilters

/-- applyFilters.ts `FieldKind`. -/
inductive FieldKind where
  | string
  | number
  | boolean
  | unknown
deriving DecidableEq, Repr

/-- applyFilters.ts `FilterableField`. -/
structure FilterableField where
  path : String
  kind : FieldKind
  optional : Bool
deriving DecidableEq, Repr

/-- applyFilters.ts `StringFilterMode`. -/
inductive StringFilterMode where
  | contains
  | startsWith
deriving DecidableEq, Repr

/-- applyFilters.ts `ExistsFilterMode`; the source tags are "exists" and
"missing" (`exists` is a Lean keyword, hence the underscore). -/
inductive ExistsFilterMode where
  | exists_
  | missing
deriving DecidableEq, Repr

/-- applyFilters.ts `FilterRule` (the `exists` variant is `exists_` because
`exists` is a Lean keyword). -/
inductive FilterRule where
  | string (id : String) (path : String) (mode : StringFilterMode) (value : String)
  | number (id : String) (path : String) (min : Option Int) (max : Option Int)
  | boolean (id : String) (path : String) (value : Bool)
  | exists_ (id : String) (path : String) (mode : ExistsFilterMode)

def FilterRule.path : FilterRule → String
  | .string _ p _ _ => p
  | .number _ p _ _ => p
  | .boolean _ p _ => p
  | .exists_ _ p _ => p

/-- One step of the `path.split(".").reduce(...)` walk: stop with
`undefined` (`none`) when the accumulator is `null`/`undefined` or not an
object, otherwise index it. A JS array is `typeof "object"`, so indexing by
a canonical numeric string or by "length" succeeds on arrays. -/
def resolveStep (acc : Option Json) (key : String) : Option Json :=
  match acc with
  | none => none
  | some j =>
    match j with
    | .obj fields => fields.lookup key
    | .arr items =>
        if key == "length" then some (.num items.length)
        else
          match key.toNat? with
          | some i => if Nat.repr i == key then items.get? i else none
          | none => none
    | _ => none

/-- `getValueAtPath` from applyFilters.ts: dot-split the path and walk the
record, `undefined` (`none`) as soon as a segment is missing or the current
value is not an object. -/
def getValueAtPath (item : JsRecord) (path : String) : Option Json :=
  (splitPath path).foldl resolveStep (some (Json.obj item))

/-- `matchesFilter` from applyFilters.ts. `value` is the result of path
resolution (`none` = JS `undefined`). The string predicate's `value == null`
guard rejects both `undefined` and a present `null`; the exists predicate's
`value !== undefined` accepts a present `null`. -/
def matchesFilter (value : Option Json) (filter : FilterRule) : Bool :=
  match filter with
  | .string _ _ mode fval =>
      match value with
      | none => false
      | some .null => false
      | some v =>
          let text := lowerString (jsToString v)
          let term := lowerString fval
          match mode with
          | .contains => strContains text term
          | .startsWith => strStartsWith text term
  | .number _ _ mn mx =>
      match value with
      | some (.num n) =>
          !(match mn with | some m => decide (n < m) | none => false) &&
          !(match mx with | some m => decide (m < n) | none => false)
      | _ => false
  | .boolean _ _ bval =>
      match value with
      | some (.bool b) => b == bval
      | _ => false
  | .exists_ _ _ mode =>
      match mode with
      | .exists_ => value.isSome
      | .missing => !value.isSome

/-- `applyFilters` from applyFilters.ts: AND-composed rules, original order
preserved, empty rule list returns the data unchanged. -/
def applyFilters (data : List JsRecord) (filters : List FilterRule) : List JsRecord :=
  if filters.length = 0 then data
  else data.filter (fun item =>
    filters.all (fun filter => matchesFilter (getValueAtPath item filter.path) filter))

open InferSchema in
/-- The `pathPrefix ? pathPrefix + "." + key : key` path join. -/
def joinPath (p : String) (key : String) : String :=
  if p == "" then key else p ++ "." ++ key

open InferSchema in
mutual
/-- The `visit` closure of `collectFilterableFields`: objects recurse into
their fields, primitives emit one entry, unions emit an `unknown` entry only
when every member is primitive, arrays are not traversed. -/
def visit (node : SchemaNode) (pathAcc : String) : List FilterableField :=
  match node with
  | .mk (.object fields) _ => visitFields fields pathAcc
  | .mk (.primitive p) opt =>
      [⟨pathAcc,
        (match p with
         | .string => .string
         | .number => .number
         | .boolean => .boolean
         | .null => .unknown), opt⟩]
  | .mk (.union ts) opt =>
      let primitiveTypes := ts.filterMap (fun t =>
        match t with
        | .primitive pt => some pt
        | _ => none)
      if primitiveTypes.length = ts.length then [⟨pathAcc, .unknown, opt⟩] else []
  | .mk (.array _) _ => []
termination_by structural node

def visitFields : List (String × SchemaNode) → String → List FilterableField
  | [], _ => []
  | (key, child) :: rest, pathAcc =>
      visit child (joinPath pathAcc key) ++ visitFields rest pathAcc
termination_by structural l => l
end

open InferSchema in
/-- `collectFilterableFields` from applyFilters.ts. -/
def collectFilterableFields (schema : Option SchemaNode) (basePath : String := "") :
    List FilterableField :=
  match schema with
  | none => []
  | some s => visit s basePath

/-- Modelled from the spec's words for the string predicate of C9: the
value resolved at the rule's path is stringified and lower-cased and then
tested with contains/startsWith against the lower-cased filter term; when
path resolution yields no value the rule never matches. (Unlike the code,
this predicate does not special-case a present `null`.) -/
def stringMatchSpec (item : JsRecord) (path : String) (mode : StringFilterMode)
    (term : String) : Bool :=
  match getValueAtPath item path with
  | none => false
  | some v =>
      let text := lowerString (jsToString v)
      let t := lowerString term
      match mode with
      | .contains => strContains text t
      | .startsWith => strStartsWith text t

/-- Path resolution yields a present `null` at the leaf. -/
def resolvesToNull (item : JsRecord) (path : String) : Bool :=
  match getValueAtPath item path with
  | some .null => true
  | _ => false

end ApplyFilters

namespace ChartData

/-- buildChartData.ts `ChartType`. -/
inductive ChartType where
  | bar
  | line
deriving DecidableEq, Repr

/-- buildChartData.ts `ChartConfig` (`null` fields are `none`). -/
structure ChartConfig where
  xField : Option String
  yField : Option String
  type : ChartType

/-- The `string | number` x coordinate of a chart point. -/
inductive XVal where
  | str (s : String)
  | num (n : Int)
deriving DecidableEq, Repr

/-- buildChartData.ts `ChartDatum`. -/
structure ChartDatum where
  x : XVal
  y : Int
deriving DecidableEq, Repr

open InferSchema in
mutual
/-- The `visit` closure of `getNumericFieldPaths`: objects recurse,
`primitive number` leaves and unions containing `number` push their path,
arrays are ignored. -/
def numVisit (node : SchemaNode) (pathAcc : String) : List String :=
  match node with
  | .mk (.object fields) _ => numVisitFields fields pathAcc
  | .mk (.primitive p) _ => if p == .number then [pathAcc] else []
  | .mk (.union ts) _ =>
      if ts.any (fun t =>
          match t with
          | .primitive .number => true
          | _ => false) then [pathAcc] else []
  | .mk (.array _) _ => []
termination_by structural node

def numVisitFields : List (String × SchemaNode) → String → List String
  | [], _ => []
  | (key, child) :: rest, pathAcc =>
      numVisit child (ApplyFilters.joinPath pathAcc key) ++ numVisitFields rest pathAcc
termination_by structural l => l
end

open InferSchema in
/-- `getNumericFieldPaths` from buildChartData.ts. -/
def getNumericFieldPaths (schema : Option SchemaNode) : List String :=
  match schema with
  | none => []
  | some s => numVisit s ""

/-- `getValueAtPath` from buildChartData.ts — the module has its own copy,
textually identical to the one in applyFilters.ts. -/
def getValueAtPath (item : JsRecord) (path : String) : Option Json :=
  (splitPath path).foldl ApplyFilters.resolveStep (some (Json.obj item))

/-- The body of the `for (const row of data)` loop of `buildChartData`:
skip the row unless `yField` resolves to a number (checked first) and
`xField` resolves to a non-nullish value (`xVal == null` rejects both a
missing value and a present `null`); emit x as-is when numeric, stringified
otherwise. -/
def buildRows : List JsRecord → String → String → List ChartDatum
  | [], _, _ => []
  | row :: rest, xField, yField =>
      let xVal := getValueAtPath row xField
      let yVal := getValueAtPath row yField
      match yVal with
      | some (.num n) =>
          (match xVal with
           | none => buildRows rest xField yField
           | some .null => buildRows rest xField yField
           | some xv =>
               ⟨(match xv with
                 | .num m => .num m
                 | other => .str (jsToString other)), n⟩ :: buildRows rest xField yField)
      | _ => buildRows rest xField yField

/-- `buildChartData` from buildChartData.ts, value semantics only (the
debug `fetch` block is modelled by `buildChartDataEffects` below). The
`if (!xField || !yField)` guard also rejects empty strings, which are falsy
in JS. -/
def buildChartData (data : List JsRecord) (config : ChartConfig) : List ChartDatum :=
  match config.xField, config.yField with
  | some xField, some yField =>
      if xField == "" || yField == "" then []
      else buildRows data xField yField
  | _, _ => []

/-- An outbound HTTP request issued by the core. -/
structure FetchCall where
  url : String
  method : String
  timestamp : Nat
deriving DecidableEq, Repr

/-- The hard-coded debug ingest endpoint of the `#region agent log` block
left inside `buildChartData`. -/
def ingestUrl : String := "http://127.0.0.1:7243/ingest/a1f3ebfc-bca2-49cb-91f6-22ba8b379fbe"

/-- `buildChartData` with its observable effects made explicit: whenever the
early `!xField || !yField` return is not taken, the function body issues a
`fetch` POST to the debug ingest endpoint with a `Date.now()` timestamp in
its body (`now` models the clock reading). The first component is the
function's return value, the second the list of network requests issued. -/
def buildChartDataEffects (now : Nat) (data : List JsRecord) (config : ChartConfig) :
    List ChartDatum × List FetchCall :=
  match config.xField, config.yField with
  | some xField, some yField =>
      if xField == "" || yField == "" then ([], [])
      else (buildRows data xField yField, [⟨ingestUrl, "POST", now⟩])
  | _, _ => ([], [])

/-- The per-record projection performed by the loop body of
`buildChartData`: `none` when the record is skipped, `some` point
otherwise. -/
def chartPoint (xField yField : String) (row : JsRecord) : Option ChartDatum :=
  match getValueAtPath row yField with
  | some (.num n) =>
      (match getValueAtPath row xField with
       | none => none
       | some .null => none
       | some xv =>
           some ⟨(match xv with
                  | .num m => .num m
                  | other => .str (jsToString other)), n⟩)
  | _ => none

/-- Modelled from the spec's words of C5: the record resolves `xField` to a
defined value (resolution yields a value, possibly a present `null`). -/
def xDefined (row : JsRecord) (xField : String) : Bool :=
  (getValueAtPath row xField).isSome

/-- The record resolves `xField` to a defined value that is not `null` —
the condition the code actually requires (`xVal == null` skips). -/
def xDefinedNonNull (row : JsRecord) (xField : String) : Bool :=
  match getValueAtPath row xField with
  | none => false
  | some .null => false
  | some _ => true

/-- The record resolves `yField` to a value that is strictly a number. -/
def yIsNumber (row : JsRecord) (yField : String) : Bool :=
  match getValueAtPath row yField with
  | some (.num _) => true
  | _ => false

end ChartData

/-! ## Theorems -/

/-- C1: the claim that every core entry point, in particular
`buildChartData`, performs no I/O and has no observable effect besides its
return value is refuted by the code: whenever both chart fields are set,
the function body issues a `fetch` POST to a hard-coded local debug ingest
endpoint (the `#region agent log` block), with a wall-clock timestamp in the
request body. The return value itself is deterministic: the value component
of the effect-annotated semantics coincides with the pure value semantics
for all inputs and clock readings. -/
theorem ChartData.buildChartData_issues_fetch :
    (ChartData.buildChartDataEffects 0 [] ⟨some "x", some "y", .bar⟩).2 =
      [⟨ChartData.ingestUrl, "POST", 0⟩] ∧
    ∀ (now : Nat) (data : List JsRecord) (config : ChartData.ChartConfig),
      (ChartData.buildChartDataEffects now data config).1 =
        ChartData.buildChartData data config := by
  refine ⟨rfl, ?_⟩
  intro now data config
  obtain ⟨x, y, t⟩ := config
  cases x <;> cases y <;>
    simp only [ChartData.buildChartDataEffects, ChartData.buildChartData] <;>
    (try split) <;> rfl

/-- C2 counterexample: `inferSchema [1, {a:1,b:2}, {b:3,a:4}]` produces a
union whose second and third members are deep-structurally equal object
types (same field-name-to-node mapping, different insertion order), yet both
are present: `JSON.stringify`-based de-duplication is key-order sensitive,
so the claimed invariant fails. -/
theorem InferSchema.inferSchema_union_duplicate_members :
    InferSchema.inferSchema
        (.arr [.num 1, .obj [("a", .num 1), ("b", .num 2)], .obj [("b", .num 3), ("a", .num 4)]])
      = some (.mk (.array (.mk (.union
          [.primitive .number,
           .object [("a", .mk (.primitive .number) false), ("b", .mk (.primitive .number) false)],
           .object [("b", .mk (.primitive .number) false), ("a", .mk (.primitive .number) false)]]) false)) false) ∧
    InferSchema.tyEquiv
        (.object [("a", .mk (.primitive .number) false), ("b", .mk (.primitive .number) false)])
        (.object [("b", .mk (.primitive .number) false), ("a", .mk (.primitive .number) false)]) = true ∧
    InferSchema.steqTy
        (.object [("a", .mk (.primitive .number) false), ("b", .mk (.primitive .number) false)])
        (.object [("b", .mk (.primitive .number) false), ("a", .mk (.primitive .number) false)]) = false :=
  ⟨rfl, rfl, rfl⟩

/-- C3 counterexample: merging two distinct unions is not commutative even
up to union-member ordering — the right-hand union is appended wholesale as
a single member of the left-hand one, so the two results have different
member sets. -/
theorem InferSchema.merge_union_union_asymmetric :
    InferSchema.mergeSchemaNodes
        (.mk (.union [.primitive .number, .primitive .string]) false)
        (.mk (.union [.primitive .number, .primitive .boolean]) false)
      = .mk (.union [.primitive .number, .primitive .string,
                     .union [.primitive .number, .primitive .boolean]]) false ∧
    InferSchema.mergeSchemaNodes
        (.mk (.union [.primitive .number, .primitive .boolean]) false)
        (.mk (.union [.primitive .number, .primitive .string]) false)
      = .mk (.union [.primitive .number, .primitive .boolean,
                     .union [.primitive .number, .primitive .string]]) false ∧
    InferSchema.nodeEquiv
        (InferSchema.mergeSchemaNodes
          (.mk (.union [.primitive .number, .primitive .string]) false)
          (.mk (.union [.primitive .number, .primitive .boolean]) false))
        (InferSchema.mergeSchemaNodes
          (.mk (.union [.primitive .number, .primitive .boolean]) false)
          (.mk (.union [.primitive .number, .primitive .string]) false)) = false :=
  ⟨rfl, rfl, rfl⟩

/-- C4 counterexample: the fold merge is not associative, not even up to
union-member ordering. Merging `{x:number}`, `{x:string}`, `number` left to
right merges the two object types field-wise first, while the right
association puts both object types as separate union members. -/
theorem InferSchema.merge_not_associative :
    InferSchema.mergeSchemaNodes
        (InferSchema.mergeSchemaNodes
          (.mk (.object [("x", .mk (.primitive .number) false)]) false)
          (.mk (.object [("x", .mk (.primitive .string) false)]) false))
        (.mk (.primitive .number) false)
      = .mk (.union [.object [("x", .mk (.union [.primitive .number, .primitive .string]) false)],
                     .primitive .number]) false ∧
    InferSchema.mergeSchemaNodes
        (.mk (.object [("x", .mk (.primitive .number) false)]) false)
        (InferSchema.mergeSchemaNodes
          (.mk (.object [("x", .mk (.primitive .string) false)]) false)
          (.mk (.primitive .number) false))
      = .mk (.union [.object [("x", .mk (.primitive .string) false)], .primitive .number,
                     .object [("x", .mk (.primitive .number) false)]]) false ∧
    InferSchema.nodeEquiv
        (InferSchema.mergeSchemaNodes
          (InferSchema.mergeSchemaNodes
            (.mk (.object [("x", .mk (.primitive .number) false)]) false)
            (.mk (.object [("x", .mk (.primitive .string) false)]) false))
          (.mk (.primitive .number) false))
        (InferSchema.mergeSchemaNodes
          (.mk (.object [("x", .mk (.primitive .number) false)]) false)
          (InferSchema.mergeSchemaNodes
            (.mk (.object [("x", .mk (.primitive .string) false)]) false)
            (.mk (.primitive .number) false))) = false :=
  ⟨rfl, rfl, rfl⟩

/-- C4 (amended): the pairwise merge is associative up to union-member
ordering when the three merged nodes are primitive-typed; in general
(aggregate types involved) associativity fails, as the counterexample
shows. -/
theorem InferSchema.merge_assoc_on_primitives :
    ∀ (p q r : InferSchema.PrimitiveType) (o1 o2 o3 : Bool),
      InferSchema.nodeEquiv
        (InferSchema.mergeSchemaNodes
          (InferSchema.mergeSchemaNodes (.mk (.primitive p) o1) (.mk (.primitive q) o2))
          (.mk (.primitive r) o3))
        (InferSchema.mergeSchemaNodes (.mk (.primitive p) o1)
          (InferSchema.mergeSchemaNodes (.mk (.primitive q) o2) (.mk (.primitive r) o3)))
        = true := by
  decide

/-- C5 counterexample: a record whose `xField` holds a present `null` and
whose `yField` is numeric resolves `xField` to a defined value, yet the
code's `xVal == null` guard skips it, so the output is strictly shorter than
the input although every record satisfies the claimed condition. -/
theorem ChartData.chart_skips_present_null_x :
    ChartData.buildChartData [[("a", Json.null), ("b", Json.num 5)]] ⟨some "a", some "b", .bar⟩ = [] ∧
    ChartData.xDefined [("a", Json.null), ("b", Json.num 5)] "a" = true ∧
    ChartData.yIsNumber [("a", Json.null), ("b", Json.num 5)] "b" = true ∧
    (ChartData.buildChartData [[("a", Json.null), ("b", Json.num 5)]]
        ⟨some "a", some "b", .bar⟩).length
      ≠ [[("a", Json.null), ("b", Json.num 5)]].length := by
  refine ⟨rfl, rfl, rfl, ?_⟩
  decide

/-- C9 counterexample: when the path resolves to a present `null`, the code
never matches (its `value == null` guard), although the claimed predicate
stringifies the resolved value — `String(null) = "null"`, lower-cased
"null", which does contain "nu". -/
theorem ApplyFilters.string_rule_present_null_divergence :
    ApplyFilters.applyFilters [[("a", Json.null)]]
        [.string "f1" "a" .contains "nu"] = [] ∧
    ApplyFilters.stringMatchSpec [("a", Json.null)] "a" .contains "nu" = true :=
  ⟨rfl, rfl⟩

/-- C9 (amended): a string rule matches a record exactly when the resolved
value is neither missing nor a present `null` and its stringified,
lower-cased form contains (mode `contains`) or starts with (mode
`startsWith`) the lower-cased filter term; both a missing value and a
present `null` never match. -/
theorem ApplyFilters.applyFilters_string_rule :
    ∀ (data : List JsRecord) (id path : String) (mode : ApplyFilters.StringFilterMode)
      (term : String),
      ApplyFilters.applyFilters data [.string id path mode term] =
        data.filter (fun r =>
          !(optJsonEq (ApplyFilters.getValueAtPath r path) (some Json.null)) &&
          ApplyFilters.stringMatchSpec r path mode term) := by
  intro data id path mode term
  unfold ApplyFilters.applyFilters
  simp only [List.length_cons, List.length_nil]
  rw [if_neg (by simp)]
  apply List.filter_congr
  intro r _
  simp only [List.all_cons, List.all_nil, Bool.and_true]
  show ApplyFilters.matchesFilter (ApplyFilters.getValueAtPath r path) _ = _
  unfold ApplyFilters.matchesFilter ApplyFilters.stringMatchSpec
  match ApplyFilters.getValueAtPath r path with
  | none => rfl
  | some .null => rfl
  | some (.bool b) => simp [optJsonEq, jsonEq]
  | some (.num n) => simp [optJsonEq, jsonEq]
  | some (.str s) => simp [optJsonEq, jsonEq]
  | some (.arr l) => simp [optJsonEq, jsonEq]
  | some (.obj f) => simp [optJsonEq, jsonEq]

/-- C10: when a filter path resolves to a present JSON `null`, an
exists-mode rule keeps the record and a missing-mode rule drops it, while
every string, number and boolean rule drops it: present `null` is defined
for the exists predicate but matches no value predicate. -/
theorem ApplyFilters.present_null_filter_semantics :
    ∀ (r : JsRecord) (id path : String),
      ApplyFilters.getValueAtPath r path = some Json.null →
      ApplyFilters.applyFilters [r] [.exists_ id path .exists_] = [r] ∧
      ApplyFilters.applyFilters [r] [.exists_ id path .missing] = [] ∧
      (∀ (mode : ApplyFilters.StringFilterMode) (term : String),
        ApplyFilters.applyFilters [r] [.string id path mode term] = []) ∧
      (∀ (mn mx : Option Int),
        ApplyFilters.applyFilters [r] [.number id path mn mx] = []) ∧
      (∀ (bv : Bool),
        ApplyFilters.applyFilters [r] [.boolean id path bv] = []) := by
  intro r id path h
  refine ⟨?_, ?_, fun mode term => ?_, fun mn mx => ?_, fun bv => ?_⟩ <;>
    simp [ApplyFilters.applyFilters, ApplyFilters.FilterRule.path, h,
      ApplyFilters.matchesFilter]

/-- The chart loop is the filterMap of its per-record projection. -/
theorem ChartData.buildRows_eq_filterMap (xf yf : String) :
    ∀ data : List JsRecord,
      ChartData.buildRows data xf yf = data.filterMap (ChartData.chartPoint xf yf) := by
  intro data
  induction data with
  | nil => rfl
  | cons row rest ih =>
      simp only [ChartData.buildRows, ChartData.chartPoint, List.filterMap_cons]
      match ChartData.getValueAtPath row yf with
      | none => exact ih
      | some .null => exact ih
      | some (.bool b) => exact ih
      | some (.str s) => exact ih
      | some (.arr l) => exact ih
      | some (.obj f) => exact ih
      | some (.num n) =>
          match ChartData.getValueAtPath row xf with
          | none => exact ih
          | some .null => exact ih
          | some (.bool b) => simpa using ih
          | some (.num m) => simpa using ih
          | some (.str s) => simpa using ih
          | some (.arr l) => simpa using ih
          | some (.obj f) => simpa using ih

/-- A filterMap keeps the full length exactly when the projection is
defined on every element. -/
theorem length_filterMap_eq_iff {α β : Type} (f : α → Option β) :
    ∀ l : List α, ((l.filterMap f).length = l.length ↔ ∀ x ∈ l, (f x).isSome = true) := by
  intro l
  induction l with
  | nil => simp
  | cons x rest ih =>
      cases h : f x with
      | some b => simp [List.filterMap_cons, h, ih]
      | none =>
          simp only [List.filterMap_cons, h, List.length_cons]
          constructor
          · intro hlen
            exfalso
            have := List.length_filterMap_le f rest
            omega
          · intro hall
            have := hall x (by simp)
            simp [h] at this

/-- The per-record projection is defined exactly when `yField` resolves to
a number and `xField` resolves to a defined, non-null value. -/
theorem ChartData.chartPoint_isSome (xf yf : String) (row : JsRecord) :
    (ChartData.chartPoint xf yf row).isSome =
      (ChartData.yIsNumber row yf && ChartData.xDefinedNonNull row xf) := by
  unfold ChartData.chartPoint ChartData.yIsNumber ChartData.xDefinedNonNull
  match ChartData.getValueAtPath row yf with
  | none => rfl
  | some .null => rfl
  | some (.bool b) => rfl
  | some (.str s) => rfl
  | some (.arr l) => rfl
  | some (.obj f) => rfl
  | some (.num n) =>
      match ChartData.getValueAtPath row xf with
      | none => rfl
      | some .null => rfl
      | some (.bool b) => rfl
      | some (.num m) => rfl
      | some (.str s) => rfl
      | some (.arr l) => rfl
      | some (.obj f) => rfl

/-- C5 (amended): with both chart fields set to nonempty path strings, the
output is the in-order filterMap of the per-record projection (each record
contributes at most one point, order preserved), its length is at most the
record count, and equality holds exactly when every record resolves `yField`
to a number and `xField` to a defined value that is not `null` (the code's
`xVal == null` guard also skips a present `null`, which the original claim
counted as defined). -/
theorem ChartData.buildChartData_length_iff :
    ∀ (data : List JsRecord) (xf yf : String) (ty : ChartData.ChartType),
      xf ≠ "" → yf ≠ "" →
      ChartData.buildChartData data ⟨some xf, some yf, ty⟩ =
        data.filterMap (ChartData.chartPoint xf yf) ∧
      (ChartData.buildChartData data ⟨some xf, some yf, ty⟩).length ≤ data.length ∧
      ((ChartData.buildChartData data ⟨some xf, some yf, ty⟩).length = data.length ↔
        ∀ r ∈ data, ChartData.yIsNumber r yf = true ∧
          ChartData.xDefinedNonNull r xf = true) := by
  intro data xf yf ty hx hy
  have hb : ChartData.buildChartData data ⟨some xf, some yf, ty⟩ =
      data.filterMap (ChartData.chartPoint xf yf) := by
    have hdef : ChartData.buildChartData data ⟨some xf, some yf, ty⟩ =
        if xf == "" || yf == "" then [] else ChartData.buildRows data xf yf := rfl
    rw [hdef, if_neg (by simp [hx, hy])]
    exact ChartData.buildRows_eq_filterMap xf yf data
  refine ⟨hb, ?_, ?_⟩
  · rw [hb]; exact List.length_filterMap_le _ _
  · rw [hb, length_filterMap_eq_iff]
    constructor
    · intro hall r hr
      have := hall r hr
      rw [ChartData.chartPoint_isSome] at this
      exact ⟨(Bool.and_eq_true_iff.mp this).1, (Bool.and_eq_true_iff.mp this).2⟩
    · intro hall r hr
      rw [ChartData.chartPoint_isSome]
      exact Bool.and_eq_true_iff.mpr (hall r hr)

/-- Witness for C5 (amended) at a one-record list where both fields
resolve: the output keeps the full length. -/
theorem ChartData.buildChartData_length_iff_witness :
    (ChartData.buildChartData [[("a", Json.str "m"), ("b", Json.num 1)]]
        ⟨some "a", some "b", .bar⟩).length = 1 := by
  have h := ChartData.buildChartData_length_iff
    [[("a", Json.str "m"), ("b", Json.num 1)]] "a" "b" .bar
    (by decide) (by decide)
  simpa using h.2.2.mpr (by decide)

/-- Element-wise inference preserves the element count. -/
theorem InferSchema.inferNodes_length :
    ∀ (l : List Json) (ns : List InferSchema.SchemaNode),
      InferSchema.inferNodes l = some ns → ns.length = l.length := by
  intro l
  induction l with
  | nil =>
      intro ns h
      simp only [InferSchema.inferNodes, Option.some.injEq] at h
      simp [← h]
  | cons j rest ih =>
      intro ns h
      simp only [InferSchema.inferNodes] at h
      split at h
      · exact absurd h (by simp)
      · split at h
        · exact absurd h (by simp)
        · rename_i ns0 hns0
          obtain ⟨rfl⟩ := Option.some.injEq .. ▸ h
          simp [ih ns0 hns0]

mutual
/-- `inferTypeForValue` never fails: the only error source, the JS `reduce`
over an empty list, is guarded by the emptiness check. -/
theorem InferSchema.inferTypeForValue_isSome :
    ∀ j : Json, (InferSchema.inferTypeForValue j).isSome = true
  | .null => rfl
  | .bool _ => rfl
  | .num _ => rfl
  | .str _ => rfl
  | .arr items => by
      by_cases h0 : items.length = 0
      · simp [InferSchema.inferTypeForValue, h0]
      · obtain ⟨ns, hns⟩ :=
          Option.isSome_iff_exists.mp (InferSchema.inferNodes_isSome items)
        have hlen := InferSchema.inferNodes_length items ns hns
        match ns, hns with
        | [], hns => simp at hlen; omega
        | n1 :: nrest, hns => simp [InferSchema.inferTypeForValue, h0, hns]
  | .obj fields => by
      obtain ⟨fs, hfs⟩ :=
        Option.isSome_iff_exists.mp (InferSchema.inferFields_isSome fields)
      simp [InferSchema.inferTypeForValue, hfs]

theorem InferSchema.inferNodes_isSome :
    ∀ l : List Json, (InferSchema.inferNodes l).isSome = true
  | [] => rfl
  | j :: rest => by
      obtain ⟨t, ht⟩ :=
        Option.isSome_iff_exists.mp (InferSchema.inferTypeForValue_isSome j)
      obtain ⟨ns, hns⟩ :=
        Option.isSome_iff_exists.mp (InferSchema.inferNodes_isSome rest)
      simp [InferSchema.inferNodes, ht, hns]

theorem InferSchema.inferFields_isSome :
    ∀ l : List (String × Json), (InferSchema.inferFields l).isSome = true
  | [] => rfl
  | (k, v) :: rest => by
      obtain ⟨t, ht⟩ :=
        Option.isSome_iff_exists.mp (InferSchema.inferTypeForValue_isSome v)
      obtain ⟨fs, hfs⟩ :=
        Option.isSome_iff_exists.mp (InferSchema.inferFields_isSome rest)
      simp [InferSchema.inferFields, ht, hfs]
end

/-- The top-level entry point never fails either. -/
theorem InferSchema.inferSchema_isSome :
    ∀ j : Json, (InferSchema.inferSchema j).isSome = true := by
  intro j
  match j with
  | .arr items =>
      by_cases h0 : items.length = 0
      · simp [InferSchema.inferSchema, h0]
      · obtain ⟨ns, hns⟩ :=
          Option.isSome_iff_exists.mp (InferSchema.inferNodes_isSome items)
        have hlen := InferSchema.inferNodes_length items ns hns
        match ns, hns with
        | [], hns => simp at hlen; omega
        | n1 :: nrest, hns => simp [InferSchema.inferSchema, h0, hns]
  | .null =>
      obtain ⟨t, ht⟩ :=
        Option.isSome_iff_exists.mp (InferSchema.inferTypeForValue_isSome .null)
      simp [InferSchema.inferSchema, ht]
  | .bool b =>
      obtain ⟨t, ht⟩ :=
        Option.isSome_iff_exists.mp (InferSchema.inferTypeForValue_isSome (.bool b))
      simp [InferSchema.inferSchema, ht]
  | .num n =>
      obtain ⟨t, ht⟩ :=
        Option.isSome_iff_exists.mp (InferSchema.inferTypeForValue_isSome (.num n))
      simp [InferSchema.inferSchema, ht]
  | .str s =>
      obtain ⟨t, ht⟩ :=
        Option.isSome_iff_exists.mp (InferSchema.inferTypeForValue_isSome (.str s))
      simp [InferSchema.inferSchema, ht]
  | .obj fields =>
      obtain ⟨t, ht⟩ :=
        Option.isSome_iff_exists.mp (InferSchema.inferTypeForValue_isSome (.obj fields))
      simp [InferSchema.inferSchema, ht]

/-- C7: all five entry points are total on JSON values. Schema inference —
the only algorithm containing a genuinely partial operation (the JS
`reduce` without an initial value, which throws on an empty list) — returns
a defined schema for every JSON value including `null` and empty
containers; the remaining entry points are structurally total functions,
shown returning defined results on the edge inputs (`null`, empty array,
empty object, empty record list, null schema, empty rule list). -/
theorem core_entry_points_total :
    (∀ j : Json, (InferSchema.inferSchema j).isSome = true) ∧
    InferSchema.inferSchema .null = some (.mk (.primitive .null) false) ∧
    InferSchema.inferSchema (.arr []) = some (.mk InferSchema.emptyArrayPlaceholder false) ∧
    InferSchema.inferSchema (.obj []) = some (.mk (.object []) false) ∧
    DiffJson.diffJson .null .null =
      .mk .unchanged (some .null) (some .null) none none ∧
    DiffJson.diffJson (.arr []) (.obj []) =
      .mk .changed (some (.arr [])) (some (.obj [])) none none ∧
    DiffJson.diffJson (.obj []) (.obj []) =
      .mk .unchanged (some (.obj [])) (some (.obj [])) (some []) none ∧
    ApplyFilters.collectFilterableFields none = [] ∧
    ApplyFilters.collectFilterableFields (some (.mk (.primitive .null) false)) =
      [⟨"", .unknown, false⟩] ∧
    ChartData.getNumericFieldPaths none = [] ∧
    ChartData.getNumericFieldPaths (some (.mk (.object []) false)) = [] ∧
    (∀ rules : List ApplyFilters.FilterRule, ApplyFilters.applyFilters [] rules = []) ∧
    (∀ config : ChartData.ChartConfig, ChartData.buildChartData [] config = []) := by
  refine ⟨InferSchema.inferSchema_isSome, rfl, rfl, rfl, rfl, rfl, rfl, rfl, rfl, rfl, rfl,
    ?_, ?_⟩
  · intro rules
    unfold ApplyFilters.applyFilters
    split <;> rfl
  · intro config
    obtain ⟨x, y, t⟩ := config
    cases x <;> cases y <;>
      simp only [ChartData.buildChartData] <;> (try split) <;> rfl

/-- A value found by key lookup is smaller than the list containing it. -/
theorem sizeOf_lookup_json :
    ∀ (l : List (String × Json)) (k : String) (v : Json),
      l.lookup k = some v → sizeOf v < sizeOf l := by
  intro l
  induction l with
  | nil => intro k v h; simp [List.lookup] at h
  | cons kv rest ih =>
      intro k v h
      obtain ⟨k1, v1⟩ := kv
      rw [List.lookup] at h
      split at h
      · obtain ⟨rfl⟩ := Option.some.injEq .. ▸ h
        simp only [List.cons.sizeOf_spec, Prod.mk.sizeOf_spec]
        omega
      · have := ih k v h
        simp only [List.cons.sizeOf_spec, Prod.mk.sizeOf_spec]
        omega

/-- `any (status != unchanged)` is the negation of
`all (status == unchanged)`. -/
theorem any_changed_eq_not_all_unchanged :
    ∀ xs : List DiffJson.DiffNode,
      xs.any (fun item => item.status != .unchanged) =
        !(xs.all (fun item => item.status == .unchanged)) := by
  intro xs
  induction xs with
  | nil => rfl
  | cons x rest ih =>
      rw [List.any_cons, List.all_cons, ih]
      cases hx : (x.status == DiffJson.DiffStatus.unchanged) <;> simp [hx, bne]

/-- Keyed version of the previous lemma, for object children. -/
theorem any_changed_eq_not_all_unchanged_fields :
    ∀ xs : List (String × DiffJson.DiffNode),
      xs.any (fun child => child.2.status != .unchanged) =
        !(xs.all (fun child => child.2.status == .unchanged)) := by
  intro xs
  induction xs with
  | nil => rfl
  | cons x rest ih =>
      rw [List.any_cons, List.all_cons, ih]
      cases hx : (x.2.status == DiffJson.DiffStatus.unchanged) <;> simp [hx, bne]

/-- `compositeInvFields` distributes over append. -/
theorem compositeInvFields_append :
    ∀ l1 l2 : List (String × DiffJson.DiffNode),
      DiffJson.compositeInvFields (l1 ++ l2) =
        (DiffJson.compositeInvFields l1 && DiffJson.compositeInvFields l2) := by
  intro l1 l2
  induction l1 with
  | nil => simp [DiffJson.compositeInvFields]
  | cons kv rest ih =>
      obtain ⟨k, c⟩ := kv
      simp [DiffJson.compositeInvFields, ih, Bool.and_assoc]

/-- Every `added` child node satisfies the composite invariant. -/
theorem compositeInvFields_added_map :
    ∀ l : List (String × Json),
      DiffJson.compositeInvFields
        (l.map (fun kv => (kv.1, DiffJson.addedNode kv.2))) = true := by
  intro l
  induction l with
  | nil => rfl
  | cons kv rest ih =>
      simp only [List.map_cons, DiffJson.compositeInvFields, ih, Bool.and_true]
      simp [DiffJson.compositeInv, DiffJson.addedNode]

/-- The invariant for the node built by the both-arrays branch of
`compareValues`, abstracted over its item list. -/
theorem compositeInv_node_arr (oV nV : Option Json) (xs : List DiffJson.DiffNode)
    (h : DiffJson.compositeInvList xs = true) :
    DiffJson.compositeInv
      (.mk (if xs.any (fun item => item.status != .unchanged)
            then .changed else .unchanged) oV nV none (some xs)) = true ∧
    DiffJson.statusCU
      (DiffJson.DiffNode.mk
        (if xs.any (fun item => item.status != .unchanged)
         then .changed else .unchanged) oV nV none (some xs)).status = true := by
  cases hall : xs.all (fun item => item.status == DiffJson.DiffStatus.unchanged)
  case false =>
    have hs : xs.any (fun item => item.status != DiffJson.DiffStatus.unchanged) = true := by
      rw [any_changed_eq_not_all_unchanged, hall]; rfl
    rw [hs]
    refine ⟨?_, rfl⟩
    simp only [DiffJson.compositeInv, if_pos rfl]
    rw [hall]
    simp [h]
  case true =>
    have hs : xs.any (fun item => item.status != DiffJson.DiffStatus.unchanged) = false := by
      rw [any_changed_eq_not_all_unchanged, hall]; rfl
    rw [hs]
    refine ⟨?_, rfl⟩
    simp only [DiffJson.compositeInv]
    rw [hall]
    simp [h]

/-- The invariant for the node built by the both-objects branch of
`compareValues`, abstracted over its children list. -/
theorem compositeInv_node_obj (oV nV : Option Json)
    (cs : List (String × DiffJson.DiffNode))
    (h : DiffJson.compositeInvFields cs = true) :
    DiffJson.compositeInv
      (.mk (if cs.any (fun child => child.2.status != .unchanged)
            then .changed else .unchanged) oV nV (some cs) none) = true ∧
    DiffJson.statusCU
      (DiffJson.DiffNode.mk
        (if cs.any (fun child => child.2.status != .unchanged)
         then .changed else .unchanged) oV nV (some cs) none).status = true := by
  cases hall : cs.all (fun child => child.2.status == DiffJson.DiffStatus.unchanged)
  case false =>
    have hs : cs.any (fun child => child.2.status != DiffJson.DiffStatus.unchanged) = true := by
      rw [any_changed_eq_not_all_unchanged_fields, hall]; rfl
    rw [hs]
    refine ⟨?_, rfl⟩
    simp only [DiffJson.compositeInv, if_pos rfl]
    rw [hall]
    simp [h]
  case true =>
    have hs : cs.any (fun child => child.2.status != DiffJson.DiffStatus.unchanged) = false := by
      rw [any_changed_eq_not_all_unchanged_fields, hall]; rfl
    rw [hs]
    refine ⟨?_, rfl⟩
    simp only [DiffJson.compositeInv]
    rw [hall]
    simp [h]

mutual
/-- Root invariant of `compareValues`: the produced node satisfies the
composite invariant recursively, and (being produced for values present on
both sides) its own status is `changed` or `unchanged`, never
`added`/`removed`. -/
theorem compareValues_compositeInv (x y : Json) :
    DiffJson.compositeInv (DiffJson.compareValues x y) = true ∧
    DiffJson.statusCU (DiffJson.compareValues x y).status = true := by
  rw [DiffJson.compareValues.eq_def]
  split
  · rename_i os ns
    exact compositeInv_node_arr _ _ _ (compareArrayItems_compositeInv os ns)
  · rename_i oldFields newFields
    refine compositeInv_node_obj _ _ _ ?_
    rw [compositeInvFields_append]
    simp [compareObjFields_compositeInv oldFields newFields,
      DiffJson.addedFields, compositeInvFields_added_map]
  · split
    · exact ⟨rfl, rfl⟩
    · rw [ite_self]
      exact ⟨rfl, rfl⟩
termination_by sizeOf x + sizeOf y
decreasing_by
  all_goals (subst_vars; simp_arith)

theorem compareArrayItems_compositeInv (os ns : List Json) :
    DiffJson.compositeInvList (DiffJson.compareArrayItems os ns) = true := by
  match os, ns with
  | [], ns =>
      rw [DiffJson.compareArrayItems]
      induction ns with
      | nil => rfl
      | cons n rest ih =>
          simp only [List.map_cons, DiffJson.compositeInvList]
          simp [DiffJson.addedNode, DiffJson.compositeInv, ih]
  | o :: os1, [] =>
      rw [DiffJson.compareArrayItems]
      simp only [DiffJson.compositeInvList]
      have := compareArrayItems_compositeInv os1 []
      simp [DiffJson.removedNode, DiffJson.compositeInv, this]
  | o :: os1, n :: ns1 =>
      rw [DiffJson.compareArrayItems]
      simp only [DiffJson.compositeInvList]
      have h1 := compareValues_compositeInv o n
      have h2 := compareArrayItems_compositeInv os1 ns1
      simp [h1.1, h2]
termination_by sizeOf os + sizeOf ns
decreasing_by
  · simp only [List.cons.sizeOf_spec]; omega
  · simp only [List.cons.sizeOf_spec]; omega
  · simp only [List.cons.sizeOf_spec]; omega

theorem compareObjFields_compositeInv (oldFields newFields : List (String × Json)) :
    DiffJson.compositeInvFields
      (DiffJson.compareObjFields oldFields newFields) = true := by
  match oldFields with
  | [] => rfl
  | (k, ov) :: rest =>
      rw [DiffJson.compareObjFields]
      simp only [DiffJson.compositeInvFields]
      have hrest := compareObjFields_compositeInv rest newFields
      match hkv : newFields.lookup k with
      | some nv =>
          have h1 := compareValues_compositeInv ov nv
          simp [h1.1, hrest]
      | none =>
          simp [DiffJson.removedNode, DiffJson.compositeInv, hrest]
termination_by sizeOf oldFields + sizeOf newFields
decreasing_by
  · simp only [List.cons.sizeOf_spec, Prod.mk.sizeOf_spec]; omega
  · simp only [List.cons.sizeOf_spec, Prod.mk.sizeOf_spec]
    have := sizeOf_lookup_json newFields k nv hkv
    omega
end

/-- C8: in every tree produced by `diffJson`, a composite node (one carrying
`children` or `arrayItems`) is `unchanged` exactly when all its
children/items are `unchanged` and `changed` otherwise; `added`/`removed`
appear only on nodes created for a key or index present on one side (such
nodes carry no children/items and only the value of their side), and the
root of any two-sided comparison is never `added`/`removed`. -/
theorem diffJson_composite_status :
    ∀ x y : Json,
      DiffJson.compositeInv (DiffJson.diffJson x y) = true ∧
      DiffJson.statusCU (DiffJson.diffJson x y).status = true := by
  intro x y
  exact compareValues_compositeInv x y

/-- A schema node found by key lookup is smaller than its field list. -/
theorem sizeOf_lookup_schema :
    ∀ (l : List (String × InferSchema.SchemaNode)) (k : String)
      (v : InferSchema.SchemaNode), l.lookup k = some v → sizeOf v < sizeOf l := by
  intro l
  induction l with
  | nil => intro k v h; simp [List.lookup] at h
  | cons kv rest ih =>
      intro k v h
      obtain ⟨k1, v1⟩ := kv
      rw [List.lookup] at h
      split at h
      · obtain ⟨rfl⟩ := Option.some.injEq .. ▸ h
        simp only [List.cons.sizeOf_spec, Prod.mk.sizeOf_spec]
        omega
      · have := ih k v h
        simp only [List.cons.sizeOf_spec, Prod.mk.sizeOf_spec]
        omega

/-- `dedupedTys` distributes over append. -/
theorem dedupedTys_append :
    ∀ l1 l2 : List InferSchema.SchemaType,
      InferSchema.dedupedTys (l1 ++ l2) =
        (InferSchema.dedupedTys l1 && InferSchema.dedupedTys l2) := by
  intro l1 l2
  induction l1 with
  | nil => simp [InferSchema.dedupedTys]
  | cons t rest ih => simp [InferSchema.dedupedTys, ih, Bool.and_assoc]

/-- `dedupedFields` distributes over append. -/
theorem dedupedFields_append :
    ∀ l1 l2 : List (String × InferSchema.SchemaNode),
      InferSchema.dedupedFields (l1 ++ l2) =
        (InferSchema.dedupedFields l1 && InferSchema.dedupedFields l2) := by
  intro l1 l2
  induction l1 with
  | nil => simp [InferSchema.dedupedFields]
  | cons kv rest ih =>
      obtain ⟨k, v⟩ := kv
      simp [InferSchema.dedupedFields, ih, Bool.and_assoc]

/-- Appending a member distinct from every existing member keeps the member
list pairwise distinct. -/
theorem pairwiseDistinct_append_one :
    ∀ (ts : List InferSchema.SchemaType) (other : InferSchema.SchemaType),
      InferSchema.pairwiseDistinct ts = true →
      ts.all (fun t => !(InferSchema.steqTy t other)) = true →
      InferSchema.pairwiseDistinct (ts ++ [other]) = true := by
  intro ts other hts hall
  induction ts with
  | nil => simp [InferSchema.pairwiseDistinct]
  | cons t rest ih =>
      simp only [InferSchema.pairwiseDistinct, Bool.and_eq_true] at hts
      simp only [List.all_cons, Bool.and_eq_true] at hall
      simp only [List.cons_append, InferSchema.pairwiseDistinct, Bool.and_eq_true]
      refine ⟨?_, ih hts.2 hall.2⟩
      simp [List.all_append, hts.1, hall.1]

/-- If no element satisfies `p` then every element satisfies `!p`. -/
theorem all_not_of_any_false {α : Type} (p : α → Bool) :
    ∀ l : List α, l.any p = false → l.all (fun x => !(p x)) = true := by
  intro l h
  induction l with
  | nil => rfl
  | cons x rest ih =>
      simp only [List.any_cons, Bool.or_eq_false_iff] at h
      simp only [List.all_cons, Bool.and_eq_true]
      exact ⟨by simp [h.1], ih h.2⟩

/-- `mergeIntoUnion` preserves the dedup invariant. -/
theorem mergeIntoUnion_deduped :
    ∀ (ts : List InferSchema.SchemaType) (other : InferSchema.SchemaType),
      InferSchema.pairwiseDistinct ts = true →
      InferSchema.dedupedTys ts = true →
      InferSchema.dedupedTy other = true →
      InferSchema.dedupedTy (InferSchema.mergeIntoUnion ts other) = true := by
  intro ts other h1 h2 h3
  unfold InferSchema.mergeIntoUnion
  cases hany : ts.any (fun t => InferSchema.steqTy t other)
  · rw [if_neg (by simp)]
    simp only [InferSchema.dedupedTy]
    have hall := all_not_of_any_false _ ts hany
    rw [pairwiseDistinct_append_one ts other h1 hall, dedupedTys_append]
    simp [h2, InferSchema.dedupedTys, h3]
  · rw [if_pos rfl]
    simp only [InferSchema.dedupedTy]
    simp [h1, h2]

/-- Forcing `optional := true` does not change the dedup status of a node. -/
theorem setOptionalTrue_deduped :
    ∀ v : InferSchema.SchemaNode,
      InferSchema.dedupedNode (InferSchema.setOptionalTrue v) =
        InferSchema.dedupedNode v := by
  intro v
  obtain ⟨t, o⟩ := v
  rfl

/-- The value found under a key of a deduped field list is deduped. -/
theorem dedupedFields_lookup :
    ∀ (l : List (String × InferSchema.SchemaNode)) (k : String)
      (v : InferSchema.SchemaNode),
      InferSchema.dedupedFields l = true → l.lookup k = some v →
      InferSchema.dedupedNode v = true := by
  intro l
  induction l with
  | nil => intro k v _ h; simp [List.lookup] at h
  | cons kv rest ih =>
      intro k v hd h
      obtain ⟨k1, v1⟩ := kv
      simp only [InferSchema.dedupedFields, Bool.and_eq_true] at hd
      rw [List.lookup] at h
      split at h
      · obtain ⟨rfl⟩ := Option.some.injEq .. ▸ h
        exact hd.1
      · exact ih k v hd.2 h

/-- Mapping `optional := true` over a filtered field list preserves
dedup. -/
theorem dedupedFields_filter_map :
    ∀ (p : String × InferSchema.SchemaNode → Bool)
      (l : List (String × InferSchema.SchemaNode)),
      InferSchema.dedupedFields l = true →
      InferSchema.dedupedFields
        ((l.filter p).map (fun kv => (kv.1, InferSchema.setOptionalTrue kv.2))) = true := by
  intro p l hl
  induction l with
  | nil => rfl
  | cons kv rest ih =>
      obtain ⟨k, v⟩ := kv
      simp only [InferSchema.dedupedFields, Bool.and_eq_true] at hl
      rw [List.filter]
      split
      · simp only [List.map_cons, InferSchema.dedupedFields,
          setOptionalTrue_deduped, Bool.and_eq_true]
        exact ⟨hl.1, ih hl.2⟩
      · exact ih hl.2

mutual
/-- `mergeSchemaTypes` preserves the dedup invariant. -/
theorem mergeSchemaTypes_deduped :
    ∀ (a b : InferSchema.SchemaType),
      InferSchema.dedupedTy a = true → InferSchema.dedupedTy b = true →
      InferSchema.dedupedTy (InferSchema.mergeSchemaTypes a b) = true
  | .primitive p, .primitive q, ha, hb => by
      rw [InferSchema.mergeSchemaTypes.eq_def]
      cases hpq : InferSchema.steqTy (.primitive p) (.primitive q)
      · rw [if_neg (by simp [hpq])]
        have hpq2 : (p == q) = false := by simpa [InferSchema.steqTy] using hpq
        simp [hpq2, InferSchema.dedupedTy, InferSchema.dedupedTys,
          InferSchema.pairwiseDistinct, InferSchema.steqTy, bne]
      · rw [if_pos (by simp [hpq])]
        exact ha
  | .array n1, .array n2, ha, hb => by
      rw [InferSchema.mergeSchemaTypes.eq_def]
      cases hc : InferSchema.steqTy (.array n1) (.array n2)
      · rw [if_neg (by simp [hc])]
        simp only [InferSchema.dedupedTy] at ha hb ⊢
        exact mergeSchemaNodes_deduped n1 n2 ha hb
      · rw [if_pos (by simp [hc])]
        exact ha
  | .object f1, .object f2, ha, hb => by
      rw [InferSchema.mergeSchemaTypes.eq_def]
      cases hc : InferSchema.steqTy (.object f1) (.object f2)
      · rw [if_neg (by simp [hc])]
        simp only [InferSchema.dedupedTy] at ha hb ⊢
        rw [dedupedFields_append]
        simp [mergeFieldsLeft_deduped f1 f2 ha hb, dedupedFields_filter_map _ f2 hb]
      · rw [if_pos (by simp [hc])]
        exact ha
  | .union t1, b, ha, hb => by
      rw [InferSchema.mergeSchemaTypes.eq_def]
      cases hc : InferSchema.steqTy (.union t1) b
      · rw [if_neg (by simp [hc])]
        simp only [InferSchema.dedupedTy, Bool.and_eq_true] at ha
        cases b <;> exact mergeIntoUnion_deduped t1 _ ha.1 ha.2 hb
      · rw [if_pos (by simp [hc])]
        exact ha
  | .primitive p, .union t2, ha, hb => by
      rw [InferSchema.mergeSchemaTypes.eq_def]
      cases hc : InferSchema.steqTy (.primitive p) (.union t2)
      · rw [if_neg (by simp [hc])]
        simp only [InferSchema.dedupedTy, Bool.and_eq_true] at hb
        exact mergeIntoUnion_deduped t2 _ hb.1 hb.2 ha
      · rw [if_pos (by simp [hc])]
        exact ha
  | .array n1, .union t2, ha, hb => by
      rw [InferSchema.mergeSchemaTypes.eq_def]
      cases hc : InferSchema.steqTy (.array n1) (.union t2)
      · rw [if_neg (by simp [hc])]
        simp only [InferSchema.dedupedTy, Bool.and_eq_true] at hb
        exact mergeIntoUnion_deduped t2 _ hb.1 hb.2 ha
      · rw [if_pos (by simp [hc])]
        exact ha
  | .object f1, .union t2, ha, hb => by
      rw [InferSchema.mergeSchemaTypes.eq_def]
      cases hc : InferSchema.steqTy (.object f1) (.union t2)
      · rw [if_neg (by simp [hc])]
        simp only [InferSchema.dedupedTy, Bool.and_eq_true] at hb
        exact mergeIntoUnion_deduped t2 _ hb.1 hb.2 ha
      · rw [if_pos (by simp [hc])]
        exact ha
  | .primitive p, .array n2, ha, hb => by
      rw [InferSchema.mergeSchemaTypes.eq_def]
      rw [if_neg (by simp [InferSchema.steqTy])]
      simp_all [InferSchema.dedupedTy, InferSchema.dedupedTys,
        InferSchema.pairwiseDistinct, InferSchema.steqTy]
  | .primitive p, .object f2, ha, hb => by
      rw [InferSchema.mergeSchemaTypes.eq_def]
      rw [if_neg (by simp [InferSchema.steqTy])]
      simp_all [InferSchema.dedupedTy, InferSchema.dedupedTys,
        InferSchema.pairwiseDistinct, InferSchema.steqTy]
  | .array n1, .primitive q, ha, hb => by
      rw [InferSchema.mergeSchemaTypes.eq_def]
      rw [if_neg (by simp [InferSchema.steqTy])]
      simp_all [InferSchema.dedupedTy, InferSchema.dedupedTys,
        InferSchema.pairwiseDistinct, InferSchema.steqTy]
  | .array n1, .object f2, ha, hb => by
      rw [InferSchema.mergeSchemaTypes.eq_def]
      rw [if_neg (by simp [InferSchema.steqTy])]
      simp_all [InferSchema.dedupedTy, InferSchema.dedupedTys,
        InferSchema.pairwiseDistinct, InferSchema.steqTy]
  | .object f1, .primitive q, ha, hb => by
      rw [InferSchema.mergeSchemaTypes.eq_def]
      rw [if_neg (by simp [InferSchema.steqTy])]
      simp_all [InferSchema.dedupedTy, InferSchema.dedupedTys,
        InferSchema.pairwiseDistinct, InferSchema.steqTy]
  | .object f1, .array n2, ha, hb => by
      rw [InferSchema.mergeSchemaTypes.eq_def]
      rw [if_neg (by simp [InferSchema.steqTy])]
      simp_all [InferSchema.dedupedTy, InferSchema.dedupedTys,
        InferSchema.pairwiseDistinct, InferSchema.steqTy]
termination_by a b => sizeOf a + sizeOf b

theorem mergeSchemaNodes_deduped :
    ∀ (a b : InferSchema.SchemaNode),
      InferSchema.dedupedNode a = true → InferSchema.dedupedNode b = true →
      InferSchema.dedupedNode (InferSchema.mergeSchemaNodes a b) = true
  | .mk t1 o1, .mk t2 o2, ha, hb => by
      rw [InferSchema.mergeSchemaNodes]
      simp only [InferSchema.dedupedNode] at ha hb ⊢
      exact mergeSchemaTypes_deduped t1 t2 ha hb
termination_by a b => sizeOf a + sizeOf b

theorem mergeFieldsLeft_deduped :
    ∀ (f1 f2 : List (String × InferSchema.SchemaNode)),
      InferSchema.dedupedFields f1 = true → InferSchema.dedupedFields f2 = true →
      InferSchema.dedupedFields (InferSchema.mergeFieldsLeft f1 f2) = true
  | [], f2, _, _ => rfl
  | (k, va) :: rest, f2, h1, h2 => by
      simp only [InferSchema.dedupedFields, Bool.and_eq_true] at h1
      rw [InferSchema.mergeFieldsLeft]
      match hkv : f2.lookup k with
      | some vb =>
          simp only [InferSchema.dedupedFields, Bool.and_eq_true]
          exact ⟨mergeSchemaNodes_deduped va vb h1.1 (dedupedFields_lookup f2 k vb h2 hkv),
            mergeFieldsLeft_deduped rest f2 h1.2 h2⟩
      | none =>
          simp only [InferSchema.dedupedFields, setOptionalTrue_deduped, Bool.and_eq_true]
          exact ⟨h1.1, mergeFieldsLeft_deduped rest f2 h1.2 h2⟩
termination_by f1 f2 => sizeOf f1 + sizeOf f2
decreasing_by
  all_goals
    first
      | (have hsz := sizeOf_lookup_schema f2 k vb hkv
         simp only [List.cons.sizeOf_spec, Prod.mk.sizeOf_spec]
         omega)
      | (simp only [List.cons.sizeOf_spec, Prod.mk.sizeOf_spec]; omega)
end

/-- The left fold of the merge over deduped nodes is deduped. -/
theorem foldl_merge_deduped :
    ∀ (rest : List InferSchema.SchemaNode) (acc : InferSchema.SchemaNode),
      InferSchema.dedupedNode acc = true →
      (∀ n ∈ rest, InferSchema.dedupedNode n = true) →
      InferSchema.dedupedNode (List.foldl InferSchema.mergeSchemaNodes acc rest) = true := by
  intro rest
  induction rest with
  | nil => intro acc hacc _; simpa using hacc
  | cons n rest1 ih =>
      intro acc hacc hmem
      rw [List.foldl_cons]
      exact ih _ (mergeSchemaNodes_deduped acc n hacc (hmem n (by simp)))
        (fun m hm => hmem m (by simp [hm]))

mutual
/-- Single-value inference produces deduped schema types. -/
theorem inferTypeForValue_deduped :
    ∀ (j : Json) (t : InferSchema.SchemaType),
      InferSchema.inferTypeForValue j = some t → InferSchema.dedupedTy t = true
  | .null, t => by intro h; obtain ⟨rfl⟩ := Option.some.injEq .. ▸ h; rfl
  | .bool _, t => by intro h; obtain ⟨rfl⟩ := Option.some.injEq .. ▸ h; rfl
  | .num _, t => by intro h; obtain ⟨rfl⟩ := Option.some.injEq .. ▸ h; rfl
  | .str _, t => by intro h; obtain ⟨rfl⟩ := Option.some.injEq .. ▸ h; rfl
  | .arr items, t => by
      intro h
      rw [InferSchema.inferTypeForValue] at h
      by_cases h0 : items.length = 0
      · rw [if_pos h0] at h
        obtain ⟨rfl⟩ := Option.some.injEq .. ▸ h
        rfl
      · rw [if_neg h0] at h
        obtain ⟨ns, hns⟩ :=
          Option.isSome_iff_exists.mp (InferSchema.inferNodes_isSome items)
        rw [hns] at h
        have hmem := inferNodes_deduped items ns hns
        match ns, h, hmem with
        | [], h, _ => simp at h
        | first :: rest, h, hmem =>
            simp only [Option.some.injEq] at h
            subst h
            simp only [InferSchema.dedupedTy]
            exact foldl_merge_deduped rest first (hmem first (List.mem_cons_self first rest))
              (fun m hm => hmem m (List.mem_cons_of_mem first hm))
  | .obj fields, t => by
      intro h
      rw [InferSchema.inferTypeForValue] at h
      split at h
      · exact absurd h (by simp)
      · rename_i fs hfs
        obtain ⟨rfl⟩ := Option.some.injEq .. ▸ h
        simp only [InferSchema.dedupedTy]
        exact inferFields_deduped fields fs hfs

theorem inferNodes_deduped :
    ∀ (l : List Json) (ns : List InferSchema.SchemaNode),
      InferSchema.inferNodes l = some ns →
      ∀ n ∈ ns, InferSchema.dedupedNode n = true
  | [], ns => by
      intro h
      simp only [InferSchema.inferNodes, Option.some.injEq] at h
      simp [← h]
  | j :: rest, ns => by
      intro h
      rw [InferSchema.inferNodes] at h
      split at h
      · exact absurd h (by simp)
      · rename_i t ht
        split at h
        · exact absurd h (by simp)
        · rename_i ns1 hns1
          obtain ⟨rfl⟩ := Option.some.injEq .. ▸ h
          intro n hn
          rcases List.mem_cons.mp hn with rfl | hn1
          · simpa [InferSchema.dedupedNode] using inferTypeForValue_deduped j t ht
          · exact inferNodes_deduped rest ns1 hns1 n hn1

theorem inferFields_deduped :
    ∀ (l : List (String × Json)) (fs : List (String × InferSchema.SchemaNode)),
      InferSchema.inferFields l = some fs → InferSchema.dedupedFields fs = true
  | [], fs => by
      intro h
      simp only [InferSchema.inferFields, Option.some.injEq] at h
      simp [← h, InferSchema.dedupedFields]
  | (k, v) :: rest, fs => by
      intro h
      rw [InferSchema.inferFields] at h
      split at h
      · exact absurd h (by simp)
      · rename_i t ht
        split at h
        · exact absurd h (by simp)
        · rename_i fs1 hfs1
          obtain ⟨rfl⟩ := Option.some.injEq .. ▸ h
          simp only [InferSchema.dedupedFields, Bool.and_eq_true]
          refine ⟨?_, inferFields_deduped rest fs1 hfs1⟩
          simpa [InferSchema.dedupedNode] using inferTypeForValue_deduped v t ht
end

/-- `inferSchema` produces deduped schemas. -/
theorem inferSchema_deduped :
    ∀ (j : Json) (n : InferSchema.SchemaNode),
      InferSchema.inferSchema j = some n → InferSchema.dedupedNode n = true := by
  intro j n h
  cases j with
  | arr items =>
      rw [InferSchema.inferSchema] at h
      by_cases h0 : items.length = 0
      · rw [if_pos h0] at h
        obtain ⟨rfl⟩ := Option.some.injEq .. ▸ h
        rfl
      · rw [if_neg h0] at h
        obtain ⟨ns, hns⟩ :=
          Option.isSome_iff_exists.mp (InferSchema.inferNodes_isSome items)
        rw [hns] at h
        have hmem := inferNodes_deduped items ns hns
        match ns, h, hmem with
        | [], h, _ => simp at h
        | first :: rest, h, hmem =>
            simp only [Option.some.injEq] at h
            subst h
            simp only [InferSchema.dedupedNode, InferSchema.dedupedTy]
            exact foldl_merge_deduped rest first (hmem first (List.mem_cons_self first rest))
              (fun m hm => hmem m (List.mem_cons_of_mem first hm))
  | null =>
      simp only [InferSchema.inferSchema] at h
      split at h
      · exact absurd h (by simp)
      · rename_i t ht
        obtain ⟨rfl⟩ := Option.some.injEq .. ▸ h
        simpa [InferSchema.dedupedNode] using inferTypeForValue_deduped _ t ht
  | bool b =>
      simp only [InferSchema.inferSchema] at h
      split at h
      · exact absurd h (by simp)
      · rename_i t ht
        obtain ⟨rfl⟩ := Option.some.injEq .. ▸ h
        simpa [InferSchema.dedupedNode] using inferTypeForValue_deduped _ t ht
  | num m =>
      simp only [InferSchema.inferSchema] at h
      split at h
      · exact absurd h (by simp)
      · rename_i t ht
        obtain ⟨rfl⟩ := Option.some.injEq .. ▸ h
        simpa [InferSchema.dedupedNode] using inferTypeForValue_deduped _ t ht
  | str s =>
      simp only [InferSchema.inferSchema] at h
      split at h
      · exact absurd h (by simp)
      · rename_i t ht
        obtain ⟨rfl⟩ := Option.some.injEq .. ▸ h
        simpa [InferSchema.dedupedNode] using inferTypeForValue_deduped _ t ht
  | obj fields =>
      simp only [InferSchema.inferSchema] at h
      split at h
      · exact absurd h (by simp)
      · rename_i t ht
        obtain ⟨rfl⟩ := Option.some.injEq .. ▸ h
        simpa [InferSchema.dedupedNode] using inferTypeForValue_deduped _ t ht

/-- C2 (amended): union de-duplication is by `JSON.stringify` serialization
equality, which in this embedding is literal structural equality including
object key insertion order. Every union produced by `inferSchema`, and every
union produced by the merge from inputs already satisfying the invariant,
contains no two serialization-equal members — but two structurally-equal
object types whose fields were inserted in different orders serialize
differently and are NOT de-duplicated, as the counterexample shows. -/
theorem InferSchema.unions_serialization_deduped :
    (∀ (j : Json) (n : InferSchema.SchemaNode),
        InferSchema.inferSchema j = some n → InferSchema.dedupedNode n = true) ∧
    (∀ a b : InferSchema.SchemaNode,
        InferSchema.dedupedNode a = true → InferSchema.dedupedNode b = true →
        InferSchema.dedupedNode (InferSchema.mergeSchemaNodes a b) = true) :=
  ⟨inferSchema_deduped, mergeSchemaNodes_deduped⟩

/-- Witness for C2 (amended): the invariant holds on the schema of a
concrete value and on a concrete merge. -/
theorem InferSchema.unions_serialization_deduped_witness :
    InferSchema.dedupedNode (.mk (.primitive .null) false) = true ∧
    InferSchema.dedupedNode
      (InferSchema.mergeSchemaNodes (.mk (.primitive .number) false)
        (.mk (.primitive .string) false)) = true :=
  ⟨InferSchema.unions_serialization_deduped.1 Json.null (.mk (.primitive .null) false) rfl,
   InferSchema.unions_serialization_deduped.2 (.mk (.primitive .number) false)
     (.mk (.primitive .string) false) rfl rfl⟩

/-- Lawful boolean equality is symmetric. -/
theorem beq_symm {α : Type} [BEq α] [LawfulBEq α] (a b : α) : (a == b) = (b == a) := by
  by_cases h : a = b
  · subst h; rfl
  · rw [beq_eq_false_iff_ne.mpr h, beq_eq_false_iff_ne.mpr (Ne.symm h)]

mutual
theorem jsonEq_refl : ∀ j : Json, jsonEq j j = true
  | .null => rfl
  | .bool b => by simp [jsonEq]
  | .num n => by simp [jsonEq]
  | .str s => by simp [jsonEq]
  | .arr items => by simp [jsonEq, jsonEqList_refl items]
  | .obj fields => by simp [jsonEq, jsonEqFields_refl fields]

theorem jsonEqList_refl : ∀ l : List Json, jsonEqList l l = true
  | [] => rfl
  | j :: rest => by simp [jsonEqList, jsonEq_refl j, jsonEqList_refl rest]

theorem jsonEqFields_refl : ∀ l : List (String × Json), jsonEqFields l l = true
  | [] => rfl
  | (k, v) :: rest => by simp [jsonEqFields, jsonEq_refl v, jsonEqFields_refl rest]
end

theorem optJsonEq_refl : ∀ o : Option Json, optJsonEq o o = true
  | none => rfl
  | some j => jsonEq_refl j

/-- Symmetry of the leaf branch of `compareValues`, given that `deepEqual`
agrees in both directions on the two values. -/
theorem diffSym_leaf_nodes (x y : Json)
    (h : DiffJson.deepEqual x y = DiffJson.deepEqual y x) :
    DiffJson.diffSym
      (if DiffJson.deepEqual x y then
        DiffJson.DiffNode.mk .unchanged (some x) (some y) none none
       else
        DiffJson.DiffNode.mk
          (if DiffJson.hasTypeChange x y then .changed else .changed)
          (some x) (some y) none none)
      (if DiffJson.deepEqual y x then
        DiffJson.DiffNode.mk .unchanged (some y) (some x) none none
       else
        DiffJson.DiffNode.mk
          (if DiffJson.hasTypeChange y x then .changed else .changed)
          (some y) (some x) none none) = true := by
  rw [← h]
  cases hde : DiffJson.deepEqual x y <;>
    simp [DiffJson.diffSym, DiffJson.statusSym, optJsonEq_refl, ite_self]

/-- The statuses related by `statusSym` agree on being `unchanged`. -/
theorem statusSym_neq_unchanged :
    ∀ s1 s2 : DiffJson.DiffStatus, DiffJson.statusSym s1 s2 = true →
      (s1 != .unchanged) = (s2 != .unchanged) := by
  intro s1 s2 h
  cases s1 <;> cases s2 <;> first | rfl | exact absurd h (by simp [DiffJson.statusSym])

theorem statusSym_if (c : Bool) :
    DiffJson.statusSym (if c then .changed else .unchanged)
      (if c then .changed else .unchanged) = true := by
  cases c <;> rfl

/-- Extract the status relation from `diffSym`. -/
theorem diffSym_status :
    ∀ d e : DiffJson.DiffNode, DiffJson.diffSym d e = true →
      DiffJson.statusSym d.status e.status = true := by
  intro d e h
  obtain ⟨s1, o1, n1, c1, a1⟩ := d
  obtain ⟨s2, o2, n2, c2, a2⟩ := e
  rw [DiffJson.diffSym.eq_def] at h
  simp only [Bool.and_eq_true] at h
  exact h.1.1.1.1

/-- `diffSymList` transports the `any status != unchanged` test. -/
theorem diffSymList_any :
    ∀ l1 l2 : List DiffJson.DiffNode, DiffJson.diffSymList l1 l2 = true →
      l1.any (fun i => i.status != .unchanged) = l2.any (fun i => i.status != .unchanged) := by
  intro l1
  induction l1 with
  | nil =>
      intro l2 h
      cases l2 with
      | nil => rfl
      | cons y ys => exact absurd h (by simp [DiffJson.diffSymList])
  | cons x xs ih =>
      intro l2 h
      cases l2 with
      | nil => exact absurd h (by simp [DiffJson.diffSymList])
      | cons y ys =>
          rw [DiffJson.diffSymList] at h
          simp only [Bool.and_eq_true] at h
          rw [List.any_cons, List.any_cons, ih ys h.2,
            statusSym_neq_unchanged x.status y.status (diffSym_status x y h.1)]

/-- An `added` item node mirrors the corresponding `removed` item node. -/
theorem diffSym_added_removed (v : Json) :
    DiffJson.diffSym (DiffJson.addedNode v) (DiffJson.removedNode v) = true := by
  simp [DiffJson.diffSym, DiffJson.addedNode, DiffJson.removedNode,
    DiffJson.statusSym, optJsonEq, jsonEq_refl]

theorem diffSym_removed_added (v : Json) :
    DiffJson.diffSym (DiffJson.removedNode v) (DiffJson.addedNode v) = true := by
  simp [DiffJson.diffSym, DiffJson.addedNode, DiffJson.removedNode,
    DiffJson.statusSym, optJsonEq, jsonEq_refl]

/-- Tail of added items versus the corresponding removed tail. -/
theorem diffSymList_added_removed :
    ∀ ns : List Json,
      DiffJson.diffSymList (ns.map DiffJson.addedNode)
        (DiffJson.compareArrayItems ns []) = true := by
  intro ns
  induction ns with
  | nil => rfl
  | cons n rest ih =>
      rw [List.map_cons, DiffJson.compareArrayItems, DiffJson.diffSymList]
      simp [diffSym_added_removed n, ih]

/-- Tail of removed items versus the corresponding added tail. -/
theorem diffSymList_removed_added :
    ∀ os : List Json,
      DiffJson.diffSymList (DiffJson.compareArrayItems os [])
        (os.map DiffJson.addedNode) = true := by
  intro os
  induction os with
  | nil => rfl
  | cons o rest ih =>
      rw [List.map_cons, DiffJson.compareArrayItems, DiffJson.diffSymList]
      simp [diffSym_removed_added o, ih]

/-- Lookup at a matching head key. -/
theorem lookup_cons_eq {α : Type} (k k1 : String) (v : α) (rest : List (String × α))
    (h : (k == k1) = true) : List.lookup k ((k1, v) :: rest) = some v := by
  rw [List.lookup, h]

/-- Lookup skips a non-matching head key. -/
theorem lookup_cons_ne {α : Type} (k k1 : String) (v : α) (rest : List (String × α))
    (h : (k == k1) = false) : List.lookup k ((k1, v) :: rest) = List.lookup k rest := by
  rw [List.lookup, h]

/-- A successful lookup result is a member of the list. -/
theorem lookup_mem {α : Type} :
    ∀ (l : List (String × α)) (k : String) (v : α),
      l.lookup k = some v → (k, v) ∈ l := by
  intro l
  induction l with
  | nil => intro k v h; simp [List.lookup] at h
  | cons kv rest ih =>
      intro k v h
      obtain ⟨k1, v1⟩ := kv
      rw [List.lookup] at h
      split at h
      · rename_i hk
        obtain ⟨rfl⟩ := Option.some.injEq .. ▸ h
        have : k = k1 := by simpa using hk
        subst this
        exact List.mem_cons_self _ _
      · exact List.mem_cons_of_mem _ (ih k v h)

/-- In a list with pairwise distinct keys, membership determines lookup. -/
theorem mem_lookup_of_nodup {α : Type} :
    ∀ (l : List (String × α)) (k : String) (v : α),
      keysNodup l = true → (k, v) ∈ l → l.lookup k = some v := by
  intro l
  induction l with
  | nil => intro k v _ h; simp at h
  | cons kv rest ih =>
      intro k v hnd h
      obtain ⟨k1, v1⟩ := kv
      simp only [keysNodup, Bool.and_eq_true] at hnd
      rcases List.mem_cons.mp h with heq | hmem
      · obtain ⟨rfl, rfl⟩ := Prod.mk.injEq .. ▸ heq
        simp [List.lookup]
      · rw [List.lookup]
        split
        · rename_i hk
          have hk2 : k = k1 := by simpa using hk
          subst hk2
          have := (List.all_eq_true.mp hnd.1) _ hmem
          simp at this
        · exact ih k v hnd.2 hmem

/-- Lookup distributes over append, preferring the left list. -/
theorem lookup_append {α : Type} :
    ∀ (l1 l2 : List (String × α)) (k : String),
      (l1 ++ l2).lookup k =
        (match l1.lookup k with
         | some v => some v
         | none => l2.lookup k) := by
  intro l1 l2 k
  induction l1 with
  | nil => simp [List.lookup]
  | cons kv rest ih =>
      obtain ⟨k1, v1⟩ := kv
      rw [List.cons_append, List.lookup, List.lookup]
      split <;> simp [ih]

/-- Appending a list whose keys are absent from the first list keeps keys
pairwise distinct. -/
theorem keysNodup_append_disjoint {α : Type} :
    ∀ (l1 l2 : List (String × α)),
      keysNodup l1 = true → keysNodup l2 = true →
      l2.all (fun kv => (l1.lookup kv.1).isNone) = true →
      keysNodup (l1 ++ l2) = true := by
  intro l1
  induction l1 with
  | nil => intro l2 _ h2 _; simpa using h2
  | cons kv rest ih =>
      intro l2 h1 h2 hdisj
      obtain ⟨k1, v1⟩ := kv
      simp only [keysNodup, Bool.and_eq_true] at h1
      simp only [List.cons_append, keysNodup, Bool.and_eq_true]
      constructor
      · rw [List.all_eq_true]
        intro kv2 hkv2
        rcases List.mem_append.mp hkv2 with hmem1 | hmem2
        · exact (List.all_eq_true.mp h1.1) kv2 hmem1
        · have hd := (List.all_eq_true.mp hdisj) kv2 hmem2
          cases hk : kv2.1 == k1
          · simp [hk]
          · rw [lookup_cons_eq _ _ _ _ hk] at hd
            simp at hd
      · refine ih l2 h1.2 h2 ?_
        rw [List.all_eq_true]
        intro kv2 hkv2
        have hd := (List.all_eq_true.mp hdisj) kv2 hkv2
        cases hk : kv2.1 == k1
        · rw [lookup_cons_ne _ _ _ _ hk] at hd
          exact hd
        · rw [lookup_cons_eq _ _ _ _ hk] at hd
          simp at hd

/-- The removed-or-recursed part of the children list has exactly the old
object's keys. -/
theorem keys_compareObjFields :
    ∀ (oldFields newFields : List (String × Json)),
      (DiffJson.compareObjFields oldFields newFields).map Prod.fst =
        oldFields.map Prod.fst := by
  intro oldFields newFields
  induction oldFields with
  | nil => rfl
  | cons kv rest ih =>
      obtain ⟨k, ov⟩ := kv
      rw [DiffJson.compareObjFields]
      split <;> simp [ih]

/-- Lists with the same keys agree on every key-distinctness test. -/
theorem all_keys_eq {α β : Type} :
    ∀ (l1 : List (String × α)) (l2 : List (String × β)),
      l1.map Prod.fst = l2.map Prod.fst →
      ∀ k0 : String,
        l1.all (fun kv => !(kv.1 == k0)) = l2.all (fun kv => !(kv.1 == k0)) := by
  intro l1
  induction l1 with
  | nil =>
      intro l2 h k0
      cases l2 with
      | nil => rfl
      | cons kv rest => simp at h
  | cons kv rest ih =>
      intro l2 h k0
      cases l2 with
      | nil => simp at h
      | cons kv2 rest2 =>
          simp only [List.map_cons, List.cons.injEq] at h
          rw [List.all_cons, List.all_cons, h.1, ih rest2 h.2 k0]

/-- `keysNodup` only depends on the key list. -/
theorem keysNodup_eq_of_keys {α β : Type} :
    ∀ (l1 : List (String × α)) (l2 : List (String × β)),
      l1.map Prod.fst = l2.map Prod.fst → keysNodup l1 = keysNodup l2 := by
  intro l1
  induction l1 with
  | nil =>
      intro l2 h
      cases l2 with
      | nil => rfl
      | cons kv rest => simp at h
  | cons kv rest ih =>
      intro l2 h
      cases l2 with
      | nil => simp at h
      | cons kv2 rest2 =>
          obtain ⟨k1, v1⟩ := kv
          obtain ⟨k2, v2⟩ := kv2
          simp only [List.map_cons, List.cons.injEq] at h
          obtain ⟨rfl, hrest⟩ := h
          simp only [keysNodup, ih rest2 hrest]
          rw [all_keys_eq rest rest2 hrest k1]

/-- Membership in `addedFields` implies the key is absent from the old
object. -/
theorem addedFields_key_absent :
    ∀ (oldFields newFields : List (String × Json)) (k : String)
      (c : DiffJson.DiffNode),
      (k, c) ∈ DiffJson.addedFields oldFields newFields →
      oldFields.lookup k = none := by
  intro oldFields newFields k c h
  unfold DiffJson.addedFields at h
  obtain ⟨⟨k2, nv⟩, hmem, heq⟩ := List.mem_map.mp h
  obtain ⟨rfl, _⟩ := Prod.mk.injEq .. ▸ heq
  have := List.of_mem_filter hmem
  simpa [Option.isNone_iff_eq_none] using this

/-- The added part of the children list keeps pairwise distinct keys. -/
theorem keysNodup_addedFields :
    ∀ (oldFields newFields : List (String × Json)),
      keysNodup newFields = true →
      keysNodup (DiffJson.addedFields oldFields newFields) = true := by
  intro oldFields newFields h
  unfold DiffJson.addedFields
  have hkeys : ((newFields.filter (fun kv => (oldFields.lookup kv.1).isNone)).map
        (fun kv => (kv.1, DiffJson.addedNode kv.2))).map Prod.fst =
      (newFields.filter (fun kv => (oldFields.lookup kv.1).isNone)).map Prod.fst := by
    rw [List.map_map]; rfl
  rw [keysNodup_eq_of_keys _ _ hkeys]
  clear hkeys
  induction newFields with
  | nil => rfl
  | cons kv rest ih =>
      obtain ⟨k1, v1⟩ := kv
      simp only [keysNodup, Bool.and_eq_true] at h
      rw [List.filter]
      split
      · simp only [keysNodup, Bool.and_eq_true]
        refine ⟨?_, ih h.2⟩
        rw [List.all_eq_true]
        intro kv2 hkv2
        exact (List.all_eq_true.mp h.1) kv2 (List.mem_of_mem_filter hkv2)
      · exact ih h.2

/-- Lookup in the removed-or-recursed part of the children list. -/
theorem lookup_compareObjFields :
    ∀ (oldFields newFields : List (String × Json)) (k : String),
      (DiffJson.compareObjFields oldFields newFields).lookup k =
        (match oldFields.lookup k, newFields.lookup k with
         | some ov, some nv => some (DiffJson.compareValues ov nv)
         | some ov, none => some (DiffJson.removedNode ov)
         | none, _ => none) := by
  intro oldFields newFields k
  induction oldFields with
  | nil => simp [DiffJson.compareObjFields, List.lookup]
  | cons kv rest ih =>
      obtain ⟨k1, ov1⟩ := kv
      rw [DiffJson.compareObjFields]
      cases hk : k == k1
      · have hskip : List.lookup k ((k1, ov1) :: rest) = List.lookup k rest :=
          lookup_cons_ne _ _ _ _ hk
        match hnf : newFields.lookup k1 with
        | some nv => rw [lookup_cons_ne _ _ _ _ hk, ih, hskip]
        | none => rw [lookup_cons_ne _ _ _ _ hk, ih, hskip]
      · have hk2 : k = k1 := by simpa using hk
        subst hk2
        rw [lookup_cons_eq _ _ _ _ hk]
        match hnf : newFields.lookup k with
        | some nv => exact lookup_cons_eq _ _ _ _ hk
        | none => exact lookup_cons_eq _ _ _ _ hk

/-- Lookup in the added part of the children list. -/
theorem lookup_addedFields :
    ∀ (oldFields newFields : List (String × Json)) (k : String),
      (DiffJson.addedFields oldFields newFields).lookup k =
        (match newFields.lookup k, oldFields.lookup k with
         | some nv, none => some (DiffJson.addedNode nv)
         | _, _ => none) := by
  intro oldFields newFields k
  induction newFields with
  | nil => simp [DiffJson.addedFields, List.lookup]
  | cons kv rest ih =>
      obtain ⟨k1, nv1⟩ := kv
      unfold DiffJson.addedFields at ih ⊢
      rw [List.filter]
      cases hk : k == k1
      · have hskip : List.lookup k ((k1, nv1) :: rest) = List.lookup k rest :=
          lookup_cons_ne _ _ _ _ hk
        cases hov : (oldFields.lookup k1).isNone
        · dsimp only
          rw [ih, hskip]
        · dsimp only
          rw [List.map_cons, lookup_cons_ne _ _ _ _ hk, ih, hskip]
      · have hk2 : k = k1 := by simpa using hk
        subst hk2
        cases hov : (oldFields.lookup k).isNone
        · dsimp only
          rw [ih, lookup_cons_eq _ _ _ _ hk]
          match hov2 : oldFields.lookup k with
          | some ov =>
              match hr : rest.lookup k with
              | some nv2 => rfl
              | none => rfl
          | none => rw [hov2] at hov; simp at hov
        · have hov2 : oldFields.lookup k = none := by
            simpa [Option.isNone_iff_eq_none] using hov
          dsimp only
          rw [List.map_cons, lookup_cons_eq _ _ _ _ hk, lookup_cons_eq _ _ _ _ hk, hov2]

/-- Combined lookup characterization of the children list built by the
both-objects branch of `compareValues`. -/
theorem lookup_children :
    ∀ (oldFields newFields : List (String × Json)) (k : String),
      (DiffJson.compareObjFields oldFields newFields ++
        DiffJson.addedFields oldFields newFields).lookup k =
        (match oldFields.lookup k, newFields.lookup k with
         | some ov, some nv => some (DiffJson.compareValues ov nv)
         | some ov, none => some (DiffJson.removedNode ov)
         | none, some nv => some (DiffJson.addedNode nv)
         | none, none => none) := by
  intro oldFields newFields k
  rw [lookup_append, lookup_compareObjFields, lookup_addedFields]
  cases hov : oldFields.lookup k <;> cases hnv : newFields.lookup k <;> rfl

/-- The children list of the both-objects branch keeps pairwise distinct
keys. -/
theorem keysNodup_children :
    ∀ (oldFields newFields : List (String × Json)),
      keysNodup oldFields = true → keysNodup newFields = true →
      keysNodup (DiffJson.compareObjFields oldFields newFields ++
        DiffJson.addedFields oldFields newFields) = true := by
  intro oldFields newFields ho hn
  refine keysNodup_append_disjoint _ _ ?_ (keysNodup_addedFields oldFields newFields hn) ?_
  · rw [keysNodup_eq_of_keys _ _ (keys_compareObjFields oldFields newFields)]
    exact ho
  · rw [List.all_eq_true]
    intro kv hkv
    obtain ⟨k, c⟩ := kv
    have habs := addedFields_key_absent oldFields newFields k c hkv
    rw [lookup_compareObjFields, habs]
    rfl

/-- The value found under a key of a well-formed field list is
well-formed. -/
theorem wfJsonFields_lookup :
    ∀ (l : List (String × Json)) (k : String) (v : Json),
      wfJsonFields l = true → l.lookup k = some v → wfJson v = true := by
  intro l
  induction l with
  | nil => intro k v _ h; simp [List.lookup] at h
  | cons kv rest ih =>
      intro k v hw h
      obtain ⟨k1, v1⟩ := kv
      rw [wfJsonFields] at hw
      simp only [Bool.and_eq_true] at hw
      rw [List.lookup] at h
      split at h
      · obtain ⟨rfl⟩ := Option.some.injEq .. ▸ h
        exact hw.1
      · exact ih k v hw.2 h

/-- Build `diffSymFields` from a per-key mirror lemma. -/
theorem diffSymFields_of_forall :
    ∀ (cs1 cs2 : List (String × DiffJson.DiffNode)),
      (∀ (k : String) (c : DiffJson.DiffNode), (k, c) ∈ cs1 →
        ∃ e, cs2.lookup k = some e ∧ DiffJson.diffSym c e = true) →
      DiffJson.diffSymFields cs1 cs2 = true := by
  intro cs1
  induction cs1 with
  | nil => intro cs2 _; rfl
  | cons kv rest ih =>
      intro cs2 h
      obtain ⟨k, c⟩ := kv
      rw [DiffJson.diffSymFields]
      obtain ⟨e, he, hsym⟩ := h k c (List.mem_cons_self _ _)
      rw [he]
      simp only [hsym, Bool.true_and]
      exact ih cs2 (fun k2 c2 hmem => h k2 c2 (List.mem_cons_of_mem _ hmem))

/-- Read the per-key mirror facts back out of `diffSymFields`. -/
theorem diffSymFields_forall :
    ∀ (cs1 cs2 : List (String × DiffJson.DiffNode)),
      DiffJson.diffSymFields cs1 cs2 = true →
      ∀ (k : String) (c : DiffJson.DiffNode), (k, c) ∈ cs1 →
        ∃ e, cs2.lookup k = some e ∧ DiffJson.diffSym c e = true := by
  intro cs1
  induction cs1 with
  | nil => intro cs2 _ k c h; simp at h
  | cons kv rest ih =>
      intro cs2 h k c hmem
      obtain ⟨k1, c1⟩ := kv
      rw [DiffJson.diffSymFields] at h
      simp only [Bool.and_eq_true] at h
      rcases List.mem_cons.mp hmem with heq | hmem2
      · obtain ⟨rfl, rfl⟩ := Prod.mk.injEq .. ▸ heq
        match he : cs2.lookup k with
        | some e =>
            rw [he] at h
            exact ⟨e, rfl, h.1⟩
        | none => rw [he] at h; simp at h
      · exact ih cs2 h.2 k c hmem2

/-- Mirrored children lists agree on the `any status != unchanged` test. -/
theorem anyFields_eq_of_sym :
    ∀ (cs1 cs2 : List (String × DiffJson.DiffNode)),
      DiffJson.diffSymFields cs1 cs2 = true →
      cs2.all (fun kv => (cs1.lookup kv.1).isSome) = true →
      keysNodup cs2 = true →
      cs1.any (fun kv => kv.2.status != .unchanged) =
        cs2.any (fun kv => kv.2.status != .unchanged) := by
  intro cs1 cs2 hsym hall hnd2
  have h12 : cs1.any (fun kv => kv.2.status != .unchanged) = true →
      cs2.any (fun kv => kv.2.status != .unchanged) = true := by
    intro h
    obtain ⟨⟨k, c⟩, hmem, hP⟩ := List.any_eq_true.mp h
    obtain ⟨e, he, hs⟩ := diffSymFields_forall cs1 cs2 hsym k c hmem
    refine List.any_eq_true.mpr ⟨(k, e), lookup_mem cs2 k e he, ?_⟩
    have := statusSym_neq_unchanged c.status e.status (diffSym_status c e hs)
    simp only at hP ⊢
    rw [← this]
    exact hP
  have h21 : cs2.any (fun kv => kv.2.status != .unchanged) = true →
      cs1.any (fun kv => kv.2.status != .unchanged) = true := by
    intro h
    obtain ⟨⟨k, e⟩, hmem, hP⟩ := List.any_eq_true.mp h
    have hs2 := (List.all_eq_true.mp hall) (k, e) hmem
    simp only [Option.isSome_iff_exists] at hs2
    obtain ⟨c, hc⟩ := hs2
    obtain ⟨e2, he2, hsym2⟩ :=
      diffSymFields_forall cs1 cs2 hsym k c (lookup_mem cs1 k c hc)
    have heq : e2 = e := by
      have := mem_lookup_of_nodup cs2 k e hnd2 hmem
      rw [this] at he2
      exact (Option.some.injEq .. ▸ he2).symm
    subst heq
    refine List.any_eq_true.mpr ⟨(k, c), lookup_mem cs1 k c hc, ?_⟩
    have := statusSym_neq_unchanged c.status e2.status (diffSym_status c e2 hsym2)
    simp only at hP ⊢
    rw [this]
    exact hP
  cases ha : cs1.any (fun kv => kv.2.status != .unchanged)
  · cases hb : cs2.any (fun kv => kv.2.status != .unchanged)
    · rfl
    · exact absurd (h21 hb) (by simp [ha])
  · exact (h12 ha).symm

mutual
/-- Symmetry of `compareValues` under swapping its arguments, on
well-formed (duplicate-key-free) JSON values. -/
theorem compareValues_diffSym :
    ∀ (x y : Json), wfJson x = true → wfJson y = true →
      DiffJson.diffSym (DiffJson.compareValues x y)
        (DiffJson.compareValues y x) = true
  | .arr os, .arr ns, hx, hy => by
      have hos : wfJsonList os = true := by simpa [wfJson] using hx
      have hns : wfJsonList ns = true := by simpa [wfJson] using hy
      have hlist := compareArrayItems_diffSym os ns hos hns
      have hany := diffSymList_any _ _ hlist
      show DiffJson.diffSym
          (DiffJson.DiffNode.mk
            (if (DiffJson.compareArrayItems os ns).any
                (fun item => item.status != .unchanged)
             then .changed else .unchanged)
            (some (.arr os)) (some (.arr ns)) none
            (some (DiffJson.compareArrayItems os ns)))
          (DiffJson.DiffNode.mk
            (if (DiffJson.compareArrayItems ns os).any
                (fun item => item.status != .unchanged)
             then .changed else .unchanged)
            (some (.arr ns)) (some (.arr os)) none
            (some (DiffJson.compareArrayItems ns os))) = true
      rw [DiffJson.diffSym]
      rw [← hany]
      simp only [optJsonEq_refl, hlist, Bool.and_true, Bool.true_and]
      split <;> rfl
  | .obj of, .obj nf, hx, hy => by
      have hox : keysNodup of = true ∧ wfJsonFields of = true := by
        simpa [wfJson] using hx
      have hoy : keysNodup nf = true ∧ wfJsonFields nf = true := by
        simpa [wfJson] using hy
      have hforall : ∀ (k : String) (c : DiffJson.DiffNode),
          (DiffJson.compareObjFields of nf ++
            DiffJson.addedFields of nf).lookup k = some c →
          ∃ e, (DiffJson.compareObjFields nf of ++
            DiffJson.addedFields nf of).lookup k = some e ∧
            DiffJson.diffSym c e = true := by
        intro k c hc
        rw [lookup_children] at hc
        rw [lookup_children]
        match hov : of.lookup k, hnv : nf.lookup k with
        | some ov, some nv =>
            rw [hov, hnv] at hc
            obtain ⟨rfl⟩ := Option.some.injEq .. ▸ hc
            exact ⟨DiffJson.compareValues nv ov, rfl,
              compareValues_diffSym ov nv
                (wfJsonFields_lookup of k ov hox.2 hov)
                (wfJsonFields_lookup nf k nv hoy.2 hnv)⟩
        | some ov, none =>
            rw [hov, hnv] at hc
            obtain ⟨rfl⟩ := Option.some.injEq .. ▸ hc
            exact ⟨DiffJson.addedNode ov, rfl, diffSym_removed_added ov⟩
        | none, some nv =>
            rw [hov, hnv] at hc
            obtain ⟨rfl⟩ := Option.some.injEq .. ▸ hc
            exact ⟨DiffJson.removedNode nv, rfl, diffSym_added_removed nv⟩
        | none, none =>
            rw [hov, hnv] at hc
            simp at hc
      have hndc1 := keysNodup_children of nf hox.1 hoy.1
      have hndc2 := keysNodup_children nf of hoy.1 hox.1
      have hsymf : DiffJson.diffSymFields
          (DiffJson.compareObjFields of nf ++ DiffJson.addedFields of nf)
          (DiffJson.compareObjFields nf of ++ DiffJson.addedFields nf of) = true :=
        diffSymFields_of_forall _ _
          (fun k c hmem => hforall k c (mem_lookup_of_nodup _ k c hndc1 hmem))
      have hall2 : (DiffJson.compareObjFields nf of ++
          DiffJson.addedFields nf of).all
            (fun kv => ((DiffJson.compareObjFields of nf ++
              DiffJson.addedFields of nf).lookup kv.1).isSome) = true := by
        rw [List.all_eq_true]
        intro kv hmem
        obtain ⟨k, e⟩ := kv
        have he := mem_lookup_of_nodup _ k e hndc2 hmem
        rw [lookup_children] at he
        simp only
        rw [lookup_children]
        match hov : of.lookup k, hnv : nf.lookup k with
        | some ov, some nv => rfl
        | some ov, none => rfl
        | none, some nv => rfl
        | none, none => rw [hov, hnv] at he; simp at he
      have hany := anyFields_eq_of_sym _ _ hsymf hall2 hndc2
      show DiffJson.diffSym
          (DiffJson.DiffNode.mk
            (if (DiffJson.compareObjFields of nf ++
                DiffJson.addedFields of nf).any
                (fun child => child.2.status != .unchanged)
             then .changed else .unchanged)
            (some (.obj of)) (some (.obj nf))
            (some (DiffJson.compareObjFields of nf ++
              DiffJson.addedFields of nf)) none)
          (DiffJson.DiffNode.mk
            (if (DiffJson.compareObjFields nf of ++
                DiffJson.addedFields nf of).any
                (fun child => child.2.status != .unchanged)
             then .changed else .unchanged)
            (some (.obj nf)) (some (.obj of))
            (some (DiffJson.compareObjFields nf of ++
              DiffJson.addedFields nf of)) none) = true
      rw [DiffJson.diffSym]
      rw [← hany]
      simp only [optJsonEq_refl, hsymf, hall2, Bool.and_true, Bool.true_and]
      split <;> rfl
  | .null, .null, _, _ => diffSym_leaf_nodes .null .null rfl
  | .null, .bool b2, _, _ => diffSym_leaf_nodes .null (.bool b2) rfl
  | .null, .num n2, _, _ => diffSym_leaf_nodes .null (.num n2) rfl
  | .null, .str s2, _, _ => diffSym_leaf_nodes .null (.str s2) rfl
  | .null, .arr l2, _, _ => diffSym_leaf_nodes .null (.arr l2) rfl
  | .null, .obj f2, _, _ => diffSym_leaf_nodes .null (.obj f2) rfl
  | .bool b1, .null, _, _ => diffSym_leaf_nodes (.bool b1) .null rfl
  | .bool b1, .bool b2, _, _ => diffSym_leaf_nodes (.bool b1) (.bool b2) (beq_symm b1 b2)
  | .bool b1, .num n2, _, _ => diffSym_leaf_nodes (.bool b1) (.num n2) rfl
  | .bool b1, .str s2, _, _ => diffSym_leaf_nodes (.bool b1) (.str s2) rfl
  | .bool b1, .arr l2, _, _ => diffSym_leaf_nodes (.bool b1) (.arr l2) rfl
  | .bool b1, .obj f2, _, _ => diffSym_leaf_nodes (.bool b1) (.obj f2) rfl
  | .num n1, .null, _, _ => diffSym_leaf_nodes (.num n1) .null rfl
  | .num n1, .bool b2, _, _ => diffSym_leaf_nodes (.num n1) (.bool b2) rfl
  | .num n1, .num n2, _, _ => diffSym_leaf_nodes (.num n1) (.num n2) (beq_symm n1 n2)
  | .num n1, .str s2, _, _ => diffSym_leaf_nodes (.num n1) (.str s2) rfl
  | .num n1, .arr l2, _, _ => diffSym_leaf_nodes (.num n1) (.arr l2) rfl
  | .num n1, .obj f2, _, _ => diffSym_leaf_nodes (.num n1) (.obj f2) rfl
  | .str s1, .null, _, _ => diffSym_leaf_nodes (.str s1) .null rfl
  | .str s1, .bool b2, _, _ => diffSym_leaf_nodes (.str s1) (.bool b2) rfl
  | .str s1, .num n2, _, _ => diffSym_leaf_nodes (.str s1) (.num n2) rfl
  | .str s1, .str s2, _, _ => diffSym_leaf_nodes (.str s1) (.str s2) (beq_symm s1 s2)
  | .str s1, .arr l2, _, _ => diffSym_leaf_nodes (.str s1) (.arr l2) rfl
  | .str s1, .obj f2, _, _ => diffSym_leaf_nodes (.str s1) (.obj f2) rfl
  | .arr l1, .null, _, _ => diffSym_leaf_nodes (.arr l1) .null rfl
  | .arr l1, .bool b2, _, _ => diffSym_leaf_nodes (.arr l1) (.bool b2) rfl
  | .arr l1, .num n2, _, _ => diffSym_leaf_nodes (.arr l1) (.num n2) rfl
  | .arr l1, .str s2, _, _ => diffSym_leaf_nodes (.arr l1) (.str s2) rfl
  | .arr l1, .obj f2, _, _ => diffSym_leaf_nodes (.arr l1) (.obj f2) rfl
  | .obj f1, .null, _, _ => diffSym_leaf_nodes (.obj f1) .null rfl
  | .obj f1, .bool b2, _, _ => diffSym_leaf_nodes (.obj f1) (.bool b2) rfl
  | .obj f1, .num n2, _, _ => diffSym_leaf_nodes (.obj f1) (.num n2) rfl
  | .obj f1, .str s2, _, _ => diffSym_leaf_nodes (.obj f1) (.str s2) rfl
  | .obj f1, .arr l2, _, _ => diffSym_leaf_nodes (.obj f1) (.arr l2) rfl
termination_by x y => sizeOf x + sizeOf y
decreasing_by
  all_goals
    first
      | (have s1 := sizeOf_lookup_json of k ov hov
         have s2 := sizeOf_lookup_json nf k nv hnv
         simp only [Json.obj.sizeOf_spec]
         omega)
      | simp_arith

theorem compareArrayItems_diffSym :
    ∀ (os ns : List Json), wfJsonList os = true → wfJsonList ns = true →
      DiffJson.diffSymList (DiffJson.compareArrayItems os ns)
        (DiffJson.compareArrayItems ns os) = true
  | [], ns, _, _ => by
      rw [DiffJson.compareArrayItems]
      exact diffSymList_added_removed ns
  | o :: os1, [], _, _ => by
      rw [DiffJson.compareArrayItems]
      exact diffSymList_removed_added (o :: os1)
  | o :: os1, n :: ns1, hx, hy => by
      have hwo : wfJson o = true ∧ wfJsonList os1 = true := by
        simpa [wfJsonList] using hx
      have hwn : wfJson n = true ∧ wfJsonList ns1 = true := by
        simpa [wfJsonList] using hy
      rw [DiffJson.compareArrayItems, DiffJson.compareArrayItems,
        DiffJson.diffSymList]
      simp [compareValues_diffSym o n hwo.1 hwn.1,
        compareArrayItems_diffSym os1 ns1 hwo.2 hwn.2]
termination_by os ns => sizeOf os + sizeOf ns
decreasing_by
  all_goals simp_arith
end

/-- C6: `diffJson` is symmetric under swapping its arguments: on
well-formed JSON values (objects never carry duplicate keys, as is
automatic for parsed JSON), the two diff trees have the same shape,
statuses related by `added` ↔ `removed` with `changed`/`unchanged`
preserved, and `oldValue`/`newValue` swapped at every node. -/
theorem diffJson_symmetric :
    ∀ (x y : Json), wfJson x = true → wfJson y = true →
      DiffJson.diffSym (DiffJson.diffJson x y) (DiffJson.diffJson y x) = true := by
  intro x y hx hy
  exact compareValues_diffSym x y hx hy

/-- Witness for C6 at concrete values. -/
theorem diffJson_symmetric_witness :
    DiffJson.diffSym
      (DiffJson.diffJson (.obj [("a", .num 1), ("b", .num 2)])
        (.obj [("a", .num 1), ("c", .num 3)]))
      (DiffJson.diffJson (.obj [("a", .num 1), ("c", .num 3)])
        (.obj [("a", .num 1), ("b", .num 2)])) = true :=
  diffJson_symmetric (.obj [("a", .num 1), ("b", .num 2)])
    (.obj [("a", .num 1), ("c", .num 3)]) rfl rfl

/-- Witness for C10 at a concrete record: `{a: null}` with path "a". -/
theorem ApplyFilters.present_null_filter_semantics_witness :
    ApplyFilters.applyFilters [[("a", Json.null)]] [.exists_ "f" "a" .exists_]
      = [[("a", Json.null)]] ∧
    ApplyFilters.applyFilters [[("a", Json.null)]] [.string "f" "a" .contains "x"] = [] := by
  have h := ApplyFilters.present_null_filter_semantics [("a", Json.null)] "f" "a" rfl
  exact ⟨h.1, h.2.2.1 .contains "x"⟩

/-- Character-list comparison is total. -/
theorem charListLe_total :
    ∀ l1 l2 : List Char, InferSchema.charListLe l1 l2 = true ∨ InferSchema.charListLe l2 l1 = true := by
  intro l1
  induction l1 with
  | nil => intro l2; left; rfl
  | cons a as ih =>
      intro l2
      cases l2 with
      | nil => right; rfl
      | cons b bs =>
          rw [InferSchema.charListLe, InferSchema.charListLe]
          cases hab : a == b
          · have hba : (b == a) = false := by rw [beq_symm]; exact hab
            rw [if_neg (by simp [hab]), if_neg (by simp [hba])]
            have hne : a.toNat ≠ b.toNat := by
              intro h
              have hv : a = b := Char.ext (UInt32.toNat.inj h)
              rw [hv] at hab
              simp at hab
            rw [Nat.blt_eq, Nat.blt_eq]
            omega
          · have hba : (b == a) = true := by rw [beq_symm]; exact hab
            rw [if_pos (by simp [hab]), if_pos (by simp [hba])]
            exact ih bs

/-- Character-list comparison is antisymmetric. -/
theorem charListLe_antisymm :
    ∀ l1 l2 : List Char,
      InferSchema.charListLe l1 l2 = true → InferSchema.charListLe l2 l1 = true → l1 = l2 := by
  intro l1
  induction l1 with
  | nil =>
      intro l2 _ h2
      cases l2 with
      | nil => rfl
      | cons b bs => rw [InferSchema.charListLe] at h2; simp at h2
  | cons a as ih =>
      intro l2 h1 h2
      cases l2 with
      | nil => rw [InferSchema.charListLe] at h1; simp at h1
      | cons b bs =>
          rw [InferSchema.charListLe] at h1 h2
          cases hab : a == b
          · have hba : (b == a) = false := by rw [beq_symm]; exact hab
            rw [if_neg (by simp [hab])] at h1
            rw [if_neg (by simp [hba])] at h2
            rw [Nat.blt_eq] at h1 h2
            omega
          · have heq : a = b := by simpa using hab
            subst heq
            rw [if_pos (by simp)] at h1
            rw [if_pos (by simp)] at h2
            rw [ih bs h1 h2]

/-- Character-list comparison is transitive. -/
theorem charListLe_trans :
    ∀ l1 l2 l3 : List Char,
      InferSchema.charListLe l1 l2 = true → InferSchema.charListLe l2 l3 = true →
      InferSchema.charListLe l1 l3 = true := by
  intro l1
  induction l1 with
  | nil => intro l2 l3 _ _; rfl
  | cons a as ih =>
      intro l2 l3 h1 h2
      cases l2 with
      | nil => rw [InferSchema.charListLe] at h1; simp at h1
      | cons b bs =>
          cases l3 with
          | nil => rw [InferSchema.charListLe] at h2; simp at h2
          | cons c cs =>
              rw [InferSchema.charListLe] at h1 h2 ⊢
              cases hab : a == b
              · rw [if_neg (by simp [hab])] at h1
                cases hbc : b == c
                · rw [if_neg (by simp [hbc])] at h2
                  cases hac : a == c
                  · rw [if_neg (by simp [hac])]
                    rw [Nat.blt_eq] at h1 h2 ⊢
                    omega
                  · exfalso
                    have heq : a = c := by simpa using hac
                    subst heq
                    rw [Nat.blt_eq] at h1 h2
                    omega
                · have heq : b = c := by simpa using hbc
                  subst heq
                  rw [if_neg (by simp [hab])]
                  exact h1
              · have heq : a = b := by simpa using hab
                subst heq
                rw [if_pos (by simp)] at h1
                cases hac : a == c
                · rw [if_neg (by simp [hac])] at h2 ⊢
                  exact h2
                · rw [if_pos (by simp [hac])] at h2 ⊢
                  exact ih bs cs h1 h2

/-- String comparison is total. -/
theorem strLeB_total : ∀ s t : String, InferSchema.strLeB s t = true ∨ InferSchema.strLeB t s = true :=
  fun s t => charListLe_total s.data t.data

/-- String comparison is antisymmetric. -/
theorem strLeB_antisymm :
    ∀ s t : String, InferSchema.strLeB s t = true → InferSchema.strLeB t s = true → s = t := by
  intro s t h1 h2
  have hd : s.data = t.data := charListLe_antisymm _ _ h1 h2
  cases s
  cases t
  exact congrArg String.mk hd

/-- String comparison is transitive. -/
theorem strLeB_trans :
    ∀ s t u : String, InferSchema.strLeB s t = true → InferSchema.strLeB t u = true → InferSchema.strLeB s u = true :=
  fun s t u h1 h2 => charListLe_trans s.data t.data u.data h1 h2

mutual
/-- Stringify-equality of schema types is reflexive. -/
theorem steqTy_refl : ∀ t, InferSchema.steqTy t t = true
  | .primitive p => by simp [InferSchema.steqTy]
  | .array n => by simp [InferSchema.steqTy, steqNode_refl n]
  | .object f => by simp [InferSchema.steqTy, steqFields_refl f]
  | .union ts => by simp [InferSchema.steqTy, steqTys_refl ts]

theorem steqNode_refl : ∀ n, InferSchema.steqNode n n = true
  | .mk t o => by simp [InferSchema.steqNode, steqTy_refl t]

theorem steqTys_refl : ∀ ts, InferSchema.steqTys ts ts = true
  | [] => by simp [InferSchema.steqTys]
  | t :: ts => by simp [InferSchema.steqTys, steqTy_refl t, steqTys_refl ts]

theorem steqFields_refl : ∀ fs, InferSchema.steqFields fs fs = true
  | [] => by simp [InferSchema.steqFields]
  | (k, v) :: fs => by simp [InferSchema.steqFields, steqNode_refl v, steqFields_refl fs]
end

mutual
/-- Stringify-equality of schema types is sound for literal equality: the
embedding serializes insertion-order-faithfully, so equal strings mean
equal embedded values. -/
theorem steqTy_eq : ∀ a b : InferSchema.SchemaType, InferSchema.steqTy a b = true → a = b
  | .primitive p, .primitive q, h => by
      simp only [InferSchema.steqTy] at h
      have hpq : p = q := by simpa using h
      rw [hpq]
  | .array n1, .array n2, h => by
      simp only [InferSchema.steqTy] at h
      rw [steqNode_eq n1 n2 h]
  | .object f1, .object f2, h => by
      simp only [InferSchema.steqTy] at h
      rw [steqFields_eq f1 f2 h]
  | .union t1, .union t2, h => by
      simp only [InferSchema.steqTy] at h
      rw [steqTys_eq t1 t2 h]
  | .primitive _, .array _, h => by simp [InferSchema.steqTy] at h
  | .primitive _, .object _, h => by simp [InferSchema.steqTy] at h
  | .primitive _, .union _, h => by simp [InferSchema.steqTy] at h
  | .array _, .primitive _, h => by simp [InferSchema.steqTy] at h
  | .array _, .object _, h => by simp [InferSchema.steqTy] at h
  | .array _, .union _, h => by simp [InferSchema.steqTy] at h
  | .object _, .primitive _, h => by simp [InferSchema.steqTy] at h
  | .object _, .array _, h => by simp [InferSchema.steqTy] at h
  | .object _, .union _, h => by simp [InferSchema.steqTy] at h
  | .union _, .primitive _, h => by simp [InferSchema.steqTy] at h
  | .union _, .array _, h => by simp [InferSchema.steqTy] at h
  | .union _, .object _, h => by simp [InferSchema.steqTy] at h

theorem steqNode_eq : ∀ a b : InferSchema.SchemaNode, InferSchema.steqNode a b = true → a = b
  | .mk t1 o1, .mk t2 o2, h => by
      simp only [InferSchema.steqNode, Bool.and_eq_true] at h
      have ho : o1 = o2 := by simpa using h.2
      rw [steqTy_eq t1 t2 h.1, ho]

theorem steqTys_eq :
    ∀ l1 l2 : List InferSchema.SchemaType, InferSchema.steqTys l1 l2 = true → l1 = l2
  | [], [], _ => rfl
  | [], _ :: _, h => by simp [InferSchema.steqTys] at h
  | _ :: _, [], h => by simp [InferSchema.steqTys] at h
  | t :: ts, u :: us, h => by
      simp only [InferSchema.steqTys, Bool.and_eq_true] at h
      rw [steqTy_eq t u h.1, steqTys_eq ts us h.2]

theorem steqFields_eq :
    ∀ l1 l2 : List (String × InferSchema.SchemaNode),
      InferSchema.steqFields l1 l2 = true → l1 = l2
  | [], [], _ => rfl
  | [], _ :: _, h => by simp [InferSchema.steqFields] at h
  | _ :: _, [], h => by simp [InferSchema.steqFields] at h
  | (k1, v1) :: f1, (k2, v2) :: f2, h => by
      simp only [InferSchema.steqFields, Bool.and_eq_true] at h
      have hk : k1 = k2 := by simpa using h.1.1
      rw [hk, steqNode_eq v1 v2 h.1.2, steqFields_eq f1 f2 h.2]
end

/-- Stringify-inequality is symmetric. -/
theorem steqTy_false_symm :
    ∀ a b : InferSchema.SchemaType,
      InferSchema.steqTy a b = false → InferSchema.steqTy b a = false := by
  intro a b h
  cases h2 : InferSchema.steqTy b a
  · rfl
  · exfalso
    have hba := steqTy_eq b a h2
    rw [hba] at h
    rw [steqTy_refl] at h
    simp at h

/-- Insertion keeps the list a permutation of the cons. -/
theorem insertSortedBy_perm {α : Type} (le : α → α → Bool) (x : α) :
    ∀ l : List α, List.Perm (InferSchema.insertSortedBy le x l) (x :: l) := by
  intro l
  induction l with
  | nil => exact List.Perm.refl _
  | cons y ys ih =>
      rw [InferSchema.insertSortedBy]
      split
      · exact List.Perm.refl _
      · exact (List.Perm.cons y ih).trans (List.Perm.swap x y ys)

/-- Insertion sort permutes its input. -/
theorem sortBy_perm {α : Type} (le : α → α → Bool) :
    ∀ l : List α, List.Perm (InferSchema.sortBy le l) l := by
  intro l
  induction l with
  | nil => exact List.Perm.refl _
  | cons x xs ih =>
      rw [InferSchema.sortBy]
      exact (insertSortedBy_perm le x (InferSchema.sortBy le xs)).trans (List.Perm.cons x ih)

/-- Inserting into a sorted list keeps it sorted, for a total transitive
comparator. -/
theorem insertSortedBy_pairwise {α : Type} (le : α → α → Bool)
    (htot : ∀ a b, le a b = true ∨ le b a = true)
    (htrans : ∀ a b c, le a b = true → le b c = true → le a c = true)
    (x : α) :
    ∀ l : List α, List.Pairwise (fun a b => le a b = true) l →
      List.Pairwise (fun a b => le a b = true) (InferSchema.insertSortedBy le x l) := by
  intro l
  induction l with
  | nil => intro _; simp [InferSchema.insertSortedBy]
  | cons y ys ih =>
      intro hp
      rw [List.pairwise_cons] at hp
      rw [InferSchema.insertSortedBy]
      split
      · rename_i hxy
        rw [List.pairwise_cons]
        constructor
        · intro z hz
          rcases List.mem_cons.mp hz with rfl | hmem
          · exact hxy
          · exact htrans x y z hxy (hp.1 z hmem)
        · rw [List.pairwise_cons]
          exact hp
      · rename_i hxy
        have hyx : le y x = true := by
          rcases htot x y with h | h
          · exact absurd h hxy
          · exact h
        rw [List.pairwise_cons]
        constructor
        · intro z hz
          have hz2 := (insertSortedBy_perm le x ys).mem_iff.mp hz
          rcases List.mem_cons.mp hz2 with rfl | hmem
          · exact hyx
          · exact hp.1 z hmem
        · exact ih hp.2

/-- Insertion sort sorts, for a total transitive comparator. -/
theorem sortBy_pairwise {α : Type} (le : α → α → Bool)
    (htot : ∀ a b, le a b = true ∨ le b a = true)
    (htrans : ∀ a b c, le a b = true → le b c = true → le a c = true) :
    ∀ l : List α, List.Pairwise (fun a b => le a b = true) (InferSchema.sortBy le l) := by
  intro l
  induction l with
  | nil => simp [InferSchema.sortBy]
  | cons x xs ih =>
      rw [InferSchema.sortBy]
      exact insertSortedBy_pairwise le htot htrans x _ ih

/-- The Bool key-distinctness check coincides with `Nodup` of the key
list. -/
theorem keysNodup_iff_nodup {α : Type} :
    ∀ l : List (String × α), keysNodup l = true ↔ (l.map Prod.fst).Nodup := by
  intro l
  induction l with
  | nil => simp [keysNodup]
  | cons kv rest ih =>
      obtain ⟨k, v⟩ := kv
      simp only [keysNodup, Bool.and_eq_true, List.map_cons, List.nodup_cons]
      constructor
      · intro h
        constructor
        · intro hmem
          obtain ⟨⟨k2, v2⟩, hmem2, hk2⟩ := List.mem_map.mp hmem
          have hall := (List.all_eq_true.mp h.1) _ hmem2
          simp only [Bool.not_eq_true'] at hall
          rw [show k2 = k from hk2] at hall
          simp at hall
        · exact ih.mp h.2
      · intro h
        constructor
        · rw [List.all_eq_true]
          intro kv2 hmem2
          obtain ⟨k2, v2⟩ := kv2
          cases hk : k2 == k
          · simp [hk]
          · exfalso
            have hk2 : k2 = k := by simpa using hk
            exact h.1 (List.mem_map.mpr ⟨(k2, v2), hmem2, hk2⟩)
        · exact ih.mpr h.2

/-- Permutation preserves key distinctness. -/
theorem keysNodup_of_perm {α : Type} :
    ∀ l1 l2 : List (String × α),
      List.Perm l1 l2 → keysNodup l1 = true → keysNodup l2 = true := by
  intro l1 l2 hperm h
  rw [keysNodup_iff_nodup] at h ⊢
  exact (hperm.map Prod.fst).nodup_iff.mp h

/-- Two association lists with pairwise distinct keys and identical lookup
functions are permutations of each other. -/
theorem assoc_perm_of_lookup_eq {α : Type} :
    ∀ (l1 l2 : List (String × α)),
      keysNodup l1 = true → keysNodup l2 = true →
      (∀ k, l1.lookup k = l2.lookup k) → List.Perm l1 l2 := by
  intro l1
  induction l1 with
  | nil =>
      intro l2 _ _ hl
      cases l2 with
      | nil => exact List.Perm.refl _
      | cons kv rest =>
          exfalso
          obtain ⟨k, v⟩ := kv
          have h := hl k
          rw [lookup_cons_eq k k v rest (by simp)] at h
          simp [List.lookup] at h
  | cons kv rest ih =>
      intro l2 hnd1 hnd2 hl
      obtain ⟨k, v⟩ := kv
      have hlk : l2.lookup k = some v := by
        rw [← hl k]
        exact lookup_cons_eq _ _ _ _ (by simp)
      have hmem : (k, v) ∈ l2 := lookup_mem l2 k v hlk
      obtain ⟨s, t, rfl⟩ := List.append_of_mem hmem
      have hmid : List.Perm (s ++ (k, v) :: t) ((k, v) :: (s ++ t)) := List.perm_middle
      refine List.Perm.trans ?_ hmid.symm
      apply List.Perm.cons
      have hnd3 := keysNodup_of_perm _ _ hmid hnd2
      simp only [keysNodup, Bool.and_eq_true] at hnd1 hnd3
      apply ih (s ++ t) hnd1.2 hnd3.2
      intro k2
      cases hk2 : k2 == k
      · have h1 : List.lookup k2 ((k, v) :: rest) = List.lookup k2 rest :=
          lookup_cons_ne _ _ _ _ hk2
        rw [← h1, hl k2, lookup_append, lookup_append]
        cases hs : s.lookup k2
        · simp only [hs]
          exact lookup_cons_ne _ _ _ _ hk2
        · simp only [hs]
      · have hk2e : k2 = k := by simpa using hk2
        subst hk2e
        have hr : rest.lookup k2 = none := by
          cases hr : rest.lookup k2
          · rfl
          · exfalso
            have hm := lookup_mem rest k2 _ hr
            have := (List.all_eq_true.mp hnd1.1) _ hm
            simp at this
        have hst : (s ++ t).lookup k2 = none := by
          cases hst : (s ++ t).lookup k2
          · rfl
          · exfalso
            have hm := lookup_mem _ k2 _ hst
            have := (List.all_eq_true.mp hnd3.1) _ hm
            simp at this
        rw [hr, hst]

/-- Two key-sorted association lists with pairwise distinct keys that are
permutations of each other are equal. -/
theorem sorted_perm_eq_of_nodup_keys {α : Type} :
    ∀ (l1 l2 : List (String × α)),
      List.Perm l1 l2 →
      List.Pairwise (fun p q => InferSchema.strLeB p.1 q.1 = true) l1 →
      List.Pairwise (fun p q => InferSchema.strLeB p.1 q.1 = true) l2 →
      keysNodup l1 = true → l1 = l2 := by
  intro l1
  induction l1 with
  | nil => intro l2 hperm _ _ _; exact hperm.nil_eq
  | cons x xs ih =>
      intro l2 hperm hs1 hs2 hnd
      cases l2 with
      | nil => exact absurd hperm.symm.nil_eq (by simp)
      | cons y ys =>
          have hxy : x = y := by
            have hxmem : x ∈ y :: ys := hperm.mem_iff.mp (List.mem_cons_self x xs)
            have hymem : y ∈ x :: xs := hperm.mem_iff.mpr (List.mem_cons_self y ys)
            rcases List.mem_cons.mp hxmem with h | hx2
            · exact h
            rcases List.mem_cons.mp hymem with h | hy2
            · exact h.symm
            exfalso
            have hle1 : InferSchema.strLeB x.1 y.1 = true := (List.pairwise_cons.mp hs1).1 y hy2
            have hle2 : InferSchema.strLeB y.1 x.1 = true := (List.pairwise_cons.mp hs2).1 x hx2
            have hkey : x.1 = y.1 := strLeB_antisymm _ _ hle1 hle2
            simp only [keysNodup, Bool.and_eq_true] at hnd
            have hall := (List.all_eq_true.mp hnd.1) y hy2
            rw [← hkey] at hall
            simp at hall
          subst hxy
          have hperm2 := hperm.cons_inv
          simp only [keysNodup, Bool.and_eq_true] at hnd
          rw [ih ys hperm2 (List.pairwise_cons.mp hs1).2 (List.pairwise_cons.mp hs2).2 hnd.2]

/-- Association lists with distinct keys and the same lookup function have
the same key-sorted form. -/
theorem fields_sort_eq {α : Type} :
    ∀ (l1 l2 : List (String × α)),
      keysNodup l1 = true → keysNodup l2 = true →
      (∀ k, l1.lookup k = l2.lookup k) →
      InferSchema.sortBy (fun p q => InferSchema.strLeB p.1 q.1) l1 =
        InferSchema.sortBy (fun p q => InferSchema.strLeB p.1 q.1) l2 := by
  intro l1 l2 h1 h2 hl
  have hperm : List.Perm l1 l2 := assoc_perm_of_lookup_eq l1 l2 h1 h2 hl
  have htot : ∀ p q : String × α,
      InferSchema.strLeB p.1 q.1 = true ∨ InferSchema.strLeB q.1 p.1 = true :=
    fun p q => strLeB_total p.1 q.1
  have htrans : ∀ p q r : String × α,
      InferSchema.strLeB p.1 q.1 = true → InferSchema.strLeB q.1 r.1 = true →
      InferSchema.strLeB p.1 r.1 = true :=
    fun p q r => strLeB_trans p.1 q.1 r.1
  apply sorted_perm_eq_of_nodup_keys
  · exact ((sortBy_perm _ l1).trans hperm).trans (sortBy_perm _ l2).symm
  · exact sortBy_pairwise _ htot htrans l1
  · exact sortBy_pairwise _ htot htrans l2
  · exact keysNodup_of_perm _ _ (sortBy_perm _ l1).symm h1

/-- Every serialization starts with its kind character. -/
theorem serTy_head :
    ∀ t : InferSchema.SchemaType, ∃ rest : List Char,
      (InferSchema.serTy t).data = InferSchema.kindChar t :: rest := by
  intro t
  cases t with
  | primitive p => cases p <;> exact ⟨_, rfl⟩
  | array n =>
      refine ⟨('(' :: (InferSchema.serNode n).data) ++ [')'], ?_⟩
      rw [InferSchema.serTy, String.data_append, String.data_append]
      rfl
  | object fs =>
      refine ⟨('(' :: (InferSchema.serFields fs).data) ++ [')'], ?_⟩
      rw [InferSchema.serTy, String.data_append, String.data_append]
      rfl
  | union ts =>
      refine ⟨('(' :: (InferSchema.serTys ts).data) ++ [')'], ?_⟩
      rw [InferSchema.serTy, String.data_append, String.data_append]
      rfl

/-- Equal serializations force equal head constructors. -/
theorem kindChar_eq_of_serTy_eq :
    ∀ a b : InferSchema.SchemaType,
      InferSchema.serTy a = InferSchema.serTy b →
      InferSchema.kindChar a = InferSchema.kindChar b := by
  intro a b h
  obtain ⟨r1, h1⟩ := serTy_head a
  obtain ⟨r2, h2⟩ := serTy_head b
  have hd : (InferSchema.serTy a).data = (InferSchema.serTy b).data := by rw [h]
  rw [h1, h2] at hd
  simp only [List.cons.injEq] at hd
  exact hd.1

/-- Canonicalization preserves the head constructor. -/
theorem canonTy_kindChar :
    ∀ t, InferSchema.kindChar (InferSchema.canonTy t) = InferSchema.kindChar t := by
  intro t
  cases t <;> rfl

/-- Distinct primitive types have distinct serializations. -/
theorem serTy_prim_ne :
    ∀ p q : InferSchema.PrimitiveType, (p == q) = false →
      ¬ (InferSchema.serTy (.primitive p) = InferSchema.serTy (.primitive q)) := by
  decide

/-- Canonicalizing a two-member union whose members canonicalize to
distinct sort keys is insensitive to the member order. -/
theorem canonTy_union_pair_comm :
    ∀ x y : InferSchema.SchemaType,
      ¬ (InferSchema.serTy (InferSchema.canonTy x) =
          InferSchema.serTy (InferSchema.canonTy y)) →
      InferSchema.canonTy (.union [x, y]) = InferSchema.canonTy (.union [y, x]) := by
  intro x y hne
  simp only [InferSchema.canonTy, InferSchema.canonTys, InferSchema.sortBy,
    InferSchema.insertSortedBy]
  cases h1 : InferSchema.strLeB (InferSchema.serTy (InferSchema.canonTy x))
      (InferSchema.serTy (InferSchema.canonTy y))
  · cases h2 : InferSchema.strLeB (InferSchema.serTy (InferSchema.canonTy y))
        (InferSchema.serTy (InferSchema.canonTy x))
    · exfalso
      rcases strLeB_total (InferSchema.serTy (InferSchema.canonTy x))
          (InferSchema.serTy (InferSchema.canonTy y)) with h | h
      · rw [h1] at h; exact Bool.noConfusion h
      · rw [h2] at h; exact Bool.noConfusion h
    · rw [if_neg (by simp [h1]), if_pos (by simp [h2])]
  · cases h2 : InferSchema.strLeB (InferSchema.serTy (InferSchema.canonTy y))
        (InferSchema.serTy (InferSchema.canonTy x))
    · rw [if_pos (by simp [h1]), if_neg (by simp [h2])]
    · exfalso
      exact hne (strLeB_antisymm _ _ h1 h2)

/-- The left part of the object merge has exactly the left object's keys. -/
theorem keys_mergeFieldsLeft :
    ∀ f1 f2 : List (String × InferSchema.SchemaNode),
      (InferSchema.mergeFieldsLeft f1 f2).map Prod.fst = f1.map Prod.fst := by
  intro f1 f2
  induction f1 with
  | nil => rfl
  | cons kv rest ih =>
      obtain ⟨k, va⟩ := kv
      rw [InferSchema.mergeFieldsLeft]
      split <;> simp [ih]

/-- Membership in the appended tail of the object merge implies the key is
absent from the left object. -/
theorem mergeTail_key_absent :
    ∀ (f1 f2 : List (String × InferSchema.SchemaNode)) (k : String)
      (v : InferSchema.SchemaNode),
      (k, v) ∈ (f2.filter (fun kv => (f1.lookup kv.1).isNone)).map
        (fun kv => (kv.1, InferSchema.setOptionalTrue kv.2)) →
      f1.lookup k = none := by
  intro f1 f2 k v h
  obtain ⟨⟨k2, vb⟩, hmem, heq⟩ := List.mem_map.mp h
  obtain ⟨rfl, _⟩ := Prod.mk.injEq .. ▸ heq
  have := List.of_mem_filter hmem
  simpa [Option.isNone_iff_eq_none] using this

/-- The appended tail of the object merge keeps pairwise distinct keys. -/
theorem keysNodup_mergeTail :
    ∀ (f1 f2 : List (String × InferSchema.SchemaNode)),
      keysNodup f2 = true →
      keysNodup ((f2.filter (fun kv => (f1.lookup kv.1).isNone)).map
        (fun kv => (kv.1, InferSchema.setOptionalTrue kv.2))) = true := by
  intro f1 f2 h
  have hkeys : (((f2.filter (fun kv => (f1.lookup kv.1).isNone)).map
        (fun kv => (kv.1, InferSchema.setOptionalTrue kv.2))).map Prod.fst) =
      (f2.filter (fun kv => (f1.lookup kv.1).isNone)).map Prod.fst := by
    rw [List.map_map]
    rfl
  rw [keysNodup_eq_of_keys _ _ hkeys]
  clear hkeys
  induction f2 with
  | nil => rfl
  | cons kv rest ih =>
      obtain ⟨k1, v1⟩ := kv
      simp only [keysNodup, Bool.and_eq_true] at h
      rw [List.filter]
      split
      · simp only [keysNodup, Bool.and_eq_true]
        refine ⟨?_, ih h.2⟩
        rw [List.all_eq_true]
        intro kv2 hkv2
        exact (List.all_eq_true.mp h.1) kv2 (List.mem_of_mem_filter hkv2)
      · exact ih h.2

/-- Lookup in the left part of the object merge. -/
theorem lookup_mergeFieldsLeft :
    ∀ (f1 f2 : List (String × InferSchema.SchemaNode)) (k : String),
      (InferSchema.mergeFieldsLeft f1 f2).lookup k =
        (match f1.lookup k, f2.lookup k with
         | some va, some vb => some (InferSchema.mergeSchemaNodes va vb)
         | some va, none => some (InferSchema.setOptionalTrue va)
         | none, _ => none) := by
  intro f1 f2 k
  induction f1 with
  | nil => simp [InferSchema.mergeFieldsLeft, List.lookup]
  | cons kv rest ih =>
      obtain ⟨k1, va1⟩ := kv
      rw [InferSchema.mergeFieldsLeft]
      cases hk : k == k1
      · have hskip : List.lookup k ((k1, va1) :: rest) = List.lookup k rest :=
          lookup_cons_ne _ _ _ _ hk
        match hf2 : f2.lookup k1 with
        | some vb => rw [lookup_cons_ne _ _ _ _ hk, ih, hskip]
        | none => rw [lookup_cons_ne _ _ _ _ hk, ih, hskip]
      · have hk2 : k = k1 := by simpa using hk
        subst hk2
        rw [lookup_cons_eq _ _ _ _ hk]
        match hf2 : f2.lookup k with
        | some vb => exact lookup_cons_eq _ _ _ _ hk
        | none => exact lookup_cons_eq _ _ _ _ hk

/-- Lookup in the appended tail of the object merge. -/
theorem lookup_mergeTail :
    ∀ (f1 f2 : List (String × InferSchema.SchemaNode)) (k : String),
      ((f2.filter (fun kv => (f1.lookup kv.1).isNone)).map
        (fun kv => (kv.1, InferSchema.setOptionalTrue kv.2))).lookup k =
        (match f2.lookup k, f1.lookup k with
         | some vb, none => some (InferSchema.setOptionalTrue vb)
         | _, _ => none) := by
  intro f1 f2 k
  induction f2 with
  | nil => simp [List.lookup]
  | cons kv rest ih =>
      obtain ⟨k1, vb1⟩ := kv
      rw [List.filter]
      cases hk : k == k1
      · have hskip : List.lookup k ((k1, vb1) :: rest) = List.lookup k rest :=
          lookup_cons_ne _ _ _ _ hk
        cases hov : (f1.lookup k1).isNone
        · dsimp only
          rw [ih, hskip]
        · dsimp only
          rw [List.map_cons, lookup_cons_ne _ _ _ _ hk, ih, hskip]
      · have hk2 : k = k1 := by simpa using hk
        subst hk2
        cases hov : (f1.lookup k).isNone
        · dsimp only
          rw [ih, lookup_cons_eq _ _ _ _ hk]
          match hov2 : f1.lookup k with
          | some va =>
              match hr : rest.lookup k with
              | some vb2 => rfl
              | none => rfl
          | none => rw [hov2] at hov; simp at hov
        · have hov2 : f1.lookup k = none := by
            simpa [Option.isNone_iff_eq_none] using hov
          dsimp only
          rw [List.map_cons, lookup_cons_eq _ _ _ _ hk, lookup_cons_eq _ _ _ _ hk, hov2]

/-- Combined lookup characterization of the object-merge field list. -/
theorem lookup_mergedFields :
    ∀ (f1 f2 : List (String × InferSchema.SchemaNode)) (k : String),
      (InferSchema.mergedFields f1 f2).lookup k =
        (match f1.lookup k, f2.lookup k with
         | some va, some vb => some (InferSchema.mergeSchemaNodes va vb)
         | some va, none => some (InferSchema.setOptionalTrue va)
         | none, some vb => some (InferSchema.setOptionalTrue vb)
         | none, none => none) := by
  intro f1 f2 k
  rw [InferSchema.mergedFields, lookup_append, lookup_mergeFieldsLeft, lookup_mergeTail]
  cases hov : f1.lookup k <;> cases hnv : f2.lookup k <;> rfl

/-- The object-merge field list keeps pairwise distinct keys. -/
theorem keysNodup_mergedFields :
    ∀ (f1 f2 : List (String × InferSchema.SchemaNode)),
      keysNodup f1 = true → keysNodup f2 = true →
      keysNodup (InferSchema.mergedFields f1 f2) = true := by
  intro f1 f2 h1 h2
  rw [InferSchema.mergedFields]
  refine keysNodup_append_disjoint _ _ ?_ (keysNodup_mergeTail f1 f2 h2) ?_
  · rw [keysNodup_eq_of_keys _ _ (keys_mergeFieldsLeft f1 f2)]
    exact h1
  · rw [List.all_eq_true]
    intro kv hkv
    obtain ⟨k, v⟩ := kv
    have habs := mergeTail_key_absent f1 f2 k v hkv
    rw [lookup_mergeFieldsLeft, habs]
    rfl

/-- Canonicalization preserves field keys. -/
theorem keys_canonFields :
    ∀ l : List (String × InferSchema.SchemaNode),
      (InferSchema.canonFields l).map Prod.fst = l.map Prod.fst := by
  intro l
  induction l with
  | nil => rfl
  | cons kv rest ih =>
      obtain ⟨k, v⟩ := kv
      rw [InferSchema.canonFields]
      simp [ih]

/-- Canonicalization of a field list commutes with lookup. -/
theorem lookup_canonFields :
    ∀ (l : List (String × InferSchema.SchemaNode)) (k : String),
      (InferSchema.canonFields l).lookup k =
        Option.map InferSchema.canonNode (l.lookup k) := by
  intro l k
  induction l with
  | nil => simp [InferSchema.canonFields, List.lookup]
  | cons kv rest ih =>
      obtain ⟨k1, v1⟩ := kv
      rw [InferSchema.canonFields]
      cases hk : k == k1
      · rw [lookup_cons_ne _ _ _ _ hk, lookup_cons_ne _ _ _ _ hk, ih]
      · rw [lookup_cons_eq _ _ _ _ hk, lookup_cons_eq _ _ _ _ hk]
        rfl

/-- Canonicalization preserves key distinctness. -/
theorem keysNodup_canonFields :
    ∀ l : List (String × InferSchema.SchemaNode),
      keysNodup (InferSchema.canonFields l) = keysNodup l := by
  intro l
  exact keysNodup_eq_of_keys _ _ (keys_canonFields l)

/-- The value found under a key of a well-formed field list is
well-formed. -/
theorem wfFieldsList_lookup :
    ∀ (l : List (String × InferSchema.SchemaNode)) (k : String)
      (v : InferSchema.SchemaNode),
      InferSchema.wfFieldsList l = true → l.lookup k = some v →
      InferSchema.wfNode v = true := by
  intro l
  induction l with
  | nil => intro k v _ h; simp [List.lookup] at h
  | cons kv rest ih =>
      intro k v hw h
      obtain ⟨k1, v1⟩ := kv
      rw [InferSchema.wfFieldsList] at hw
      simp only [Bool.and_eq_true] at hw
      rw [List.lookup] at h
      split at h
      · obtain ⟨rfl⟩ := Option.some.injEq .. ▸ h
        exact hw.1
      · exact ih k v hw.2 h

/-- The value found under a key of a union-free field list is
union-free. -/
theorem unionFreeFields_lookup :
    ∀ (l : List (String × InferSchema.SchemaNode)) (k : String)
      (v : InferSchema.SchemaNode),
      InferSchema.unionFreeFields l = true → l.lookup k = some v →
      InferSchema.unionFreeNode v = true := by
  intro l
  induction l with
  | nil => intro k v _ h; simp [List.lookup] at h
  | cons kv rest ih =>
      intro k v hw h
      obtain ⟨k1, v1⟩ := kv
      rw [InferSchema.unionFreeFields] at hw
      simp only [Bool.and_eq_true] at hw
      rw [List.lookup] at h
      split at h
      · obtain ⟨rfl⟩ := Option.some.injEq .. ▸ h
        exact hw.1
      · exact ih k v hw.2 h

mutual
/-- Merging union-free, well-formed schema types is commutative up to
canonicalization (union member order and object key order). -/
theorem mergeTypes_comm_canon :
    ∀ (a b : InferSchema.SchemaType),
      InferSchema.unionFreeTy a = true → InferSchema.unionFreeTy b = true →
      InferSchema.wfTy a = true → InferSchema.wfTy b = true →
      InferSchema.canonTy (InferSchema.mergeSchemaTypes a b) =
        InferSchema.canonTy (InferSchema.mergeSchemaTypes b a)
  | .primitive p, .primitive q, _, _, _, _ => by
      cases hc : InferSchema.steqTy (.primitive p) (.primitive q)
      · have hc2 := steqTy_false_symm _ _ hc
        have hpq : (p == q) = false := by simpa [InferSchema.steqTy] using hc
        have hqp : (q == p) = false := by simpa [InferSchema.steqTy] using hc2
        rw [InferSchema.mergeSchemaTypes.eq_def, InferSchema.mergeSchemaTypes.eq_def]
        rw [if_neg (by simp [hc]), if_neg (by simp [hc2])]
        show InferSchema.canonTy
            (if p != q then .union [.primitive p, .primitive q] else .primitive p) =
          InferSchema.canonTy
            (if q != p then .union [.primitive q, .primitive p] else .primitive q)
        rw [if_pos (by simp [bne, hpq]), if_pos (by simp [bne, hqp])]
        exact canonTy_union_pair_comm _ _
          (by simpa [InferSchema.canonTy] using serTy_prim_ne p q hpq)
      · rw [steqTy_eq _ _ hc]
  | .array n1, .array n2, hua, hub, hwa, hwb => by
      cases hc : InferSchema.steqTy (.array n1) (.array n2)
      · have hc2 := steqTy_false_symm _ _ hc
        rw [InferSchema.mergeSchemaTypes.eq_def, InferSchema.mergeSchemaTypes.eq_def]
        rw [if_neg (by simp [hc]), if_neg (by simp [hc2])]
        show InferSchema.canonTy (.array (InferSchema.mergeSchemaNodes n1 n2)) =
          InferSchema.canonTy (.array (InferSchema.mergeSchemaNodes n2 n1))
        simp only [InferSchema.canonTy]
        rw [mergeNodes_comm_canon n1 n2 (by simpa [InferSchema.unionFreeTy] using hua)
          (by simpa [InferSchema.unionFreeTy] using hub)
          (by simpa [InferSchema.wfTy] using hwa)
          (by simpa [InferSchema.wfTy] using hwb)]
      · rw [steqTy_eq _ _ hc]
  | .object f1, .object f2, hua, hub, hwa, hwb => by
      cases hc : InferSchema.steqTy (.object f1) (.object f2)
      · have hc2 := steqTy_false_symm _ _ hc
        have hu1 : InferSchema.unionFreeFields f1 = true := by
          simpa [InferSchema.unionFreeTy] using hua
        have hu2 : InferSchema.unionFreeFields f2 = true := by
          simpa [InferSchema.unionFreeTy] using hub
        have hw1 : keysNodup f1 = true ∧ InferSchema.wfFieldsList f1 = true := by
          simpa [InferSchema.wfTy, Bool.and_eq_true] using hwa
        have hw2 : keysNodup f2 = true ∧ InferSchema.wfFieldsList f2 = true := by
          simpa [InferSchema.wfTy, Bool.and_eq_true] using hwb
        rw [InferSchema.mergeSchemaTypes.eq_def, InferSchema.mergeSchemaTypes.eq_def]
        rw [if_neg (by simp [hc]), if_neg (by simp [hc2])]
        show InferSchema.canonTy (.object (InferSchema.mergedFields f1 f2)) =
          InferSchema.canonTy (.object (InferSchema.mergedFields f2 f1))
        simp only [InferSchema.canonTy]
        congr 1
        apply fields_sort_eq
        · rw [keysNodup_canonFields]
          exact keysNodup_mergedFields f1 f2 hw1.1 hw2.1
        · rw [keysNodup_canonFields]
          exact keysNodup_mergedFields f2 f1 hw2.1 hw1.1
        · intro k
          rw [lookup_canonFields, lookup_canonFields, lookup_mergedFields,
            lookup_mergedFields]
          match h1 : f1.lookup k, h2 : f2.lookup k with
          | some va, some vb =>
              show some (InferSchema.canonNode (InferSchema.mergeSchemaNodes va vb)) =
                some (InferSchema.canonNode (InferSchema.mergeSchemaNodes vb va))
              rw [mergeNodes_comm_canon va vb (unionFreeFields_lookup f1 k va hu1 h1)
                (unionFreeFields_lookup f2 k vb hu2 h2)
                (wfFieldsList_lookup f1 k va hw1.2 h1)
                (wfFieldsList_lookup f2 k vb hw2.2 h2)]
          | some va, none => rfl
          | none, some vb => rfl
          | none, none => rfl
      · rw [steqTy_eq _ _ hc]
  | .primitive p, .array n2, _, _, _, _ => by
      rw [InferSchema.mergeSchemaTypes.eq_def, InferSchema.mergeSchemaTypes.eq_def]
      rw [if_neg (by simp [InferSchema.steqTy]), if_neg (by simp [InferSchema.steqTy])]
      show InferSchema.canonTy (.union [.primitive p, .array n2]) =
        InferSchema.canonTy (.union [.array n2, .primitive p])
      apply canonTy_union_pair_comm
      intro h
      have hk := kindChar_eq_of_serTy_eq _ _ h
      rw [canonTy_kindChar, canonTy_kindChar] at hk
      simp [InferSchema.kindChar] at hk
  | .primitive p, .object f2, _, _, _, _ => by
      rw [InferSchema.mergeSchemaTypes.eq_def, InferSchema.mergeSchemaTypes.eq_def]
      rw [if_neg (by simp [InferSchema.steqTy]), if_neg (by simp [InferSchema.steqTy])]
      show InferSchema.canonTy (.union [.primitive p, .object f2]) =
        InferSchema.canonTy (.union [.object f2, .primitive p])
      apply canonTy_union_pair_comm
      intro h
      have hk := kindChar_eq_of_serTy_eq _ _ h
      rw [canonTy_kindChar, canonTy_kindChar] at hk
      simp [InferSchema.kindChar] at hk
  | .array n1, .primitive q, _, _, _, _ => by
      rw [InferSchema.mergeSchemaTypes.eq_def, InferSchema.mergeSchemaTypes.eq_def]
      rw [if_neg (by simp [InferSchema.steqTy]), if_neg (by simp [InferSchema.steqTy])]
      show InferSchema.canonTy (.union [.array n1, .primitive q]) =
        InferSchema.canonTy (.union [.primitive q, .array n1])
      apply canonTy_union_pair_comm
      intro h
      have hk := kindChar_eq_of_serTy_eq _ _ h
      rw [canonTy_kindChar, canonTy_kindChar] at hk
      simp [InferSchema.kindChar] at hk
  | .array n1, .object f2, _, _, _, _ => by
      rw [InferSchema.mergeSchemaTypes.eq_def, InferSchema.mergeSchemaTypes.eq_def]
      rw [if_neg (by simp [InferSchema.steqTy]), if_neg (by simp [InferSchema.steqTy])]
      show InferSchema.canonTy (.union [.array n1, .object f2]) =
        InferSchema.canonTy (.union [.object f2, .array n1])
      apply canonTy_union_pair_comm
      intro h
      have hk := kindChar_eq_of_serTy_eq _ _ h
      rw [canonTy_kindChar, canonTy_kindChar] at hk
      simp [InferSchema.kindChar] at hk
  | .object f1, .primitive q, _, _, _, _ => by
      rw [InferSchema.mergeSchemaTypes.eq_def, InferSchema.mergeSchemaTypes.eq_def]
      rw [if_neg (by simp [InferSchema.steqTy]), if_neg (by simp [InferSchema.steqTy])]
      show InferSchema.canonTy (.union [.object f1, .primitive q]) =
        InferSchema.canonTy (.union [.primitive q, .object f1])
      apply canonTy_union_pair_comm
      intro h
      have hk := kindChar_eq_of_serTy_eq _ _ h
      rw [canonTy_kindChar, canonTy_kindChar] at hk
      simp [InferSchema.kindChar] at hk
  | .object f1, .array n2, _, _, _, _ => by
      rw [InferSchema.mergeSchemaTypes.eq_def, InferSchema.mergeSchemaTypes.eq_def]
      rw [if_neg (by simp [InferSchema.steqTy]), if_neg (by simp [InferSchema.steqTy])]
      show InferSchema.canonTy (.union [.object f1, .array n2]) =
        InferSchema.canonTy (.union [.array n2, .object f1])
      apply canonTy_union_pair_comm
      intro h
      have hk := kindChar_eq_of_serTy_eq _ _ h
      rw [canonTy_kindChar, canonTy_kindChar] at hk
      simp [InferSchema.kindChar] at hk
  | .union t1, _, hua, _, _, _ => by simp [InferSchema.unionFreeTy] at hua
  | _, .union t2, _, hub, _, _ => by simp [InferSchema.unionFreeTy] at hub
termination_by a b => sizeOf a + sizeOf b
decreasing_by
  all_goals first
    | (have hsz1 := sizeOf_lookup_schema f1 k va h1
       have hsz2 := sizeOf_lookup_schema f2 k vb h2
       simp only [InferSchema.SchemaType.object.sizeOf_spec]
       omega)
    | (simp only [InferSchema.SchemaType.array.sizeOf_spec]; omega)
    | simp_arith

/-- Merging union-free, well-formed schema nodes is commutative up to
canonicalization. -/
theorem mergeNodes_comm_canon :
    ∀ (a b : InferSchema.SchemaNode),
      InferSchema.unionFreeNode a = true → InferSchema.unionFreeNode b = true →
      InferSchema.wfNode a = true → InferSchema.wfNode b = true →
      InferSchema.canonNode (InferSchema.mergeSchemaNodes a b) =
        InferSchema.canonNode (InferSchema.mergeSchemaNodes b a)
  | .mk t1 o1, .mk t2 o2, hua, hub, hwa, hwb => by
      rw [InferSchema.mergeSchemaNodes, InferSchema.mergeSchemaNodes]
      simp only [InferSchema.canonNode]
      rw [mergeTypes_comm_canon t1 t2 (by simpa [InferSchema.unionFreeNode] using hua)
        (by simpa [InferSchema.unionFreeNode] using hub)
        (by simpa [InferSchema.wfNode] using hwa)
        (by simpa [InferSchema.wfNode] using hwb), Bool.or_comm]
termination_by a b => sizeOf a + sizeOf b
end

/-- C3 (amended): pairwise merge commutativity holds up to union-member
ordering (and object key order, which structural equality ignores) whenever
neither input contains a union — `merge(a,b)` and `merge(b,a)` are deeply
structurally equal for all union-free, well-formed schema nodes. When both
inputs are unions the claim fails: the left union absorbs the right one as
a single opaque member, so the two orders differ even as member sets. -/
theorem InferSchema.merge_comm_union_free :
    ∀ a b : InferSchema.SchemaNode,
      InferSchema.unionFreeNode a = true → InferSchema.unionFreeNode b = true →
      InferSchema.wfNode a = true → InferSchema.wfNode b = true →
      InferSchema.nodeEquiv (InferSchema.mergeSchemaNodes a b)
        (InferSchema.mergeSchemaNodes b a) = true := by
  intro a b hua hub hwa hwb
  rw [InferSchema.nodeEquiv, mergeNodes_comm_canon a b hua hub hwa hwb]
  exact steqNode_refl _

/-- Witness for the amended C3 on concrete inputs: merging the nodes for
`{x: number}` and `"s"` in either order yields structurally equal results
(`{x:number} | string` with members in serialization order). -/
theorem InferSchema.merge_comm_union_free_witness :
    InferSchema.unionFreeNode
        (.mk (.object [("x", .mk (.primitive .number) false)]) false) = true ∧
    InferSchema.unionFreeNode (.mk (.primitive .string) false) = true ∧
    InferSchema.wfNode
        (.mk (.object [("x", .mk (.primitive .number) false)]) false) = true ∧
    InferSchema.wfNode (.mk (.primitive .string) false) = true ∧
    InferSchema.nodeEquiv
      (InferSchema.mergeSchemaNodes
        (.mk (.object [("x", .mk (.primitive .number) false)]) false)
        (.mk (.primitive .string) false))
      (InferSchema.mergeSchemaNodes
        (.mk (.primitive .string) false)
        (.mk (.object [("x", .mk (.primitive .number) false)]) false)) = true :=
  ⟨rfl, rfl, rfl, rfl,
    InferSchema.merge_comm_union_free
      (.mk (.object [("x", .mk (.primitive .number) false)]) false)
      (.mk (.primitive .string) false) rfl rfl rfl rfl⟩
